import Mathlib

/-!
# Verification of `OrderedOverlappingHierarchy`

Shallow embedding of the `OrderedOverlappingHierarchy<Member>` class
(the version whose public API is `relate` / `unrelate` / `members` /
`relationships` / `children` / `descendants` / `parents` / `ancestors`).

The JavaScript `Map<Member, Array<Member>>` is modelled as an association
list `List (M × List M)` that preserves insertion order, exactly as a JS
`Map` does: `mapSet` overwrites the value in place when the key is present
and appends a fresh entry otherwise, `mapDelete` removes the entry.

The recursive JS method `descendants` has no termination fuel; it diverges
on a cyclic children map (and such maps are in fact constructible through
the public API, see the cycle theorem below).  We embed it with fuel
`length + 1`, which provably computes exactly graph reachability on every
map (theorem `mem_descList_iff_Reaches`); on every input where the JS
recursion terminates the two agree.

`#createRelationship` recurses (to implicitly relate a missing parent to
the hierarch).  The recursion depth is at most 3 calls, so it is embedded
with an explicit fuel of 3; `createRelF_fuel_ge` below proves any fuel
≥ 3 gives the same result.
-/

namespace OOH

variable {M : Type} [DecidableEq M]

/-- Association-list model of the JS `Map<Member, Array<Member>>`. -/
abbrev CMap (M : Type) := List (M × List M)

/-- `Map.get`: value at the first matching key. -/
def mapGet (cm : CMap M) (k : M) : Option (List M) :=
  match cm with
  | [] => none
  | (a, v) :: rest => if a = k then some v else mapGet rest k

/-- `Map.set`: overwrite in place when the key is present, else append. -/
def mapSet (cm : CMap M) (k : M) (v : List M) : CMap M :=
  match cm with
  | [] => [(k, v)]
  | (a, w) :: rest => if a = k then (a, v) :: rest else (a, w) :: mapSet rest k v

/-- `Map.delete`: drop every entry with that key (there is at most one). -/
def mapDelete (cm : CMap M) (k : M) : CMap M :=
  cm.filter (fun e => e.1 ≠ k)

/-- `Map.keys()` in insertion order; `members()` is the set of these. -/
def keys (cm : CMap M) : List M :=
  cm.map Prod.fst

/-- `children` lookup with the `|| []` default used throughout the class. -/
def childrenOf (cm : CMap M) (m : M) : List M :=
  (mapGet cm m).getD []

/-- The hierarchy: the immutable `hierarch` plus the children map. -/
structure Hierarchy (M : Type) where
  hierarch : M
  childrenMap : CMap M

/-- `new OrderedOverlappingHierarchy(hierarch)`. -/
def ofHierarch (r : M) : Hierarchy M :=
  ⟨r, [(r, [])]⟩

/-- `members()` (as the key list; the JS `Set` is its deduplication,
and the key list never holds duplicates in reachable states). -/
def members (h : Hierarchy M) : List M :=
  keys h.childrenMap

/-- `children(member)`: `undefined` for a non-member. -/
def children (h : Hierarchy M) (m : M) : Option (List M) :=
  mapGet h.childrenMap m

/-- One level of the recursive body of `descendants`:
`children ∪ children.flatMap descendants`, with explicit fuel. -/
def descF (fuel : Nat) (cm : CMap M) (m : M) : List M :=
  match fuel with
  | 0 => []
  | fuel + 1 =>
    let cs := childrenOf cm m
    cs ++ cs.flatMap (fun c => descF fuel cm c)

/-- The descendant list at the stabilising fuel `length + 1`
(sufficient for full reachability on every map; see
`mem_descList_iff_Reaches`). -/
def descList (cm : CMap M) (m : M) : List M :=
  descF (cm.length + 1) cm m

/-- `descendants(member)`: `undefined` for a non-member. -/
def descendants (h : Hierarchy M) (m : M) : Option (List M) :=
  if (mapGet h.childrenMap m).isSome then some (descList h.childrenMap m) else none

/-- `#hasDescendant`: `!!this.descendants(parent)?.has(child)`. -/
def hasDescendant (h : Hierarchy M) (p c : M) : Bool :=
  match descendants h p with
  | some l => c ∈ l
  | none => false

/-- The member list filtered by `child ∈ children(n)` — the `parents`
query before wrapping in `Option`. -/
def parentsOf (cm : CMap M) (m : M) : List M :=
  (keys cm).filter (fun n => m ∈ childrenOf cm n)

/-- `parents(member)`: `undefined` for a non-member. -/
def parents (h : Hierarchy M) (m : M) : Option (List M) :=
  if (mapGet h.childrenMap m).isSome then some (parentsOf h.childrenMap m) else none

/-- `ancestors(member)`: members whose descendant set holds `m`. -/
def ancestors (h : Hierarchy M) (m : M) : Option (List M) :=
  if (mapGet h.childrenMap m).isSome then
    some ((keys h.childrenMap).filter (fun n => m ∈ descList h.childrenMap n))
  else none

/-- `relationships()`: every `(parent, child, childIndex)` triple, in map
iteration order. -/
def relationships (h : Hierarchy M) : List (M × M × Nat) :=
  h.childrenMap.flatMap (fun e => e.2.enum.map (fun ic => (e.1, ic.2, ic.1)))

/-- `#add`: `childrenMap.set(member, children(member) || [])`. -/
def addMember (h : Hierarchy M) (m : M) : Hierarchy M :=
  ⟨h.hierarch, mapSet h.childrenMap m (childrenOf h.childrenMap m)⟩

/-- First-occurrence removal: `array.splice(array.indexOf(member), 1)`
guarded by `array.includes(member)` (no guard needed: removal of an
absent element is the identity). -/
def eraseFirst (l : List M) (m : M) : List M :=
  match l with
  | [] => []
  | x :: xs => if x = m then xs else x :: eraseFirst xs m

/-- `array.splice(start, 0, member)`: insertion with the start index
clamped to the array length. -/
def spliceInsert (l : List M) (n : Nat) (m : M) : List M :=
  match l, n with
  | l, 0 => m :: l
  | [], _ + 1 => [m]
  | x :: xs, n + 1 => x :: spliceInsert xs n m

/-- `#position`: `effectiveIndex = index ?? array.length` is computed
BEFORE the removal of an existing occurrence; returns the new array and
the effective index (which the caller reports). -/
def positionList (l : List M) (m : M) (idx : Option Nat) : List M × Nat :=
  let eff := idx.getD l.length
  (spliceInsert (eraseFirst l m) eff m, eff)

/-- `unrelate({parent, child})`: filter `child` out of `parent`'s list
(creating an empty entry when `parent` was no member, as
`children(parent)?.filter(...) || []` does), then delete `child`'s entry
when it is a member with no remaining parents. -/
def unrelate (h : Hierarchy M) (p c : M) : Hierarchy M :=
  let cm1 := mapSet h.childrenMap p ((childrenOf h.childrenMap p).filter (fun x => x ≠ c))
  let cm2 :=
    if (mapGet cm1 c).isSome ∧ (parentsOf cm1 c).isEmpty then mapDelete cm1 c else cm1
  ⟨h.hierarch, cm2⟩

/-- `new OrderedOverlappingHierarchy(source)` for a hierarchy source:
set the hierarch with an empty list first, then copy every member's
child list in member order. -/
def cloneH (h : Hierarchy M) : Hierarchy M :=
  ⟨h.hierarch,
    (keys h.childrenMap).foldl
      (fun acc k => mapSet acc k (childrenOf h.childrenMap k))
      [(h.hierarch, [])]⟩

/-- `#isTransitiveRelationship`: unrelate the edge on a clone and test
whether the child is still a descendant of the parent there. -/
def isTransitiveRel (h : Hierarchy M) (p c : M) : Bool :=
  hasDescendant (unrelate (cloneH h) p c) p c

/-- The eager `filter` of `#reduce`: computed on the current state
before any removal happens. -/
def flaggedRels (h : Hierarchy M) : List (M × M × Nat) :=
  (relationships h).filter (fun r => isTransitiveRel h r.1 r.2.1)

/-- `#reduce`: unrelate every flagged relationship, sequentially. -/
def reduceOp (h : Hierarchy M) : Hierarchy M :=
  (flaggedRels h).foldl (fun st r => unrelate st r.1 r.2.1) h

/-- Result of one `#createRelationship` call. -/
inductive RelResult (M : Type) where
  | rel (parent child : M) (childIndex : Nat)
  | loopErr
  | cycleErr
deriving DecidableEq, Repr

/-- `#createRelationship`, with fuel for the bounded self-recursion
(implicitly relating a missing parent to the hierarch).  Fuel 3 always
suffices (`createRelF_fuel_ge`); fuel 0 is unreachable from there.
When the parent is still missing after the recursion the JS code crashes
on `childrenMap.get(parent)`; the embedding totalises that corner with
`childrenOf` (= `[]`), so theorems about `relate` assume the hierarch is
a member, which keeps that corner unreachable. -/
def createRelF (fuel : Nat) (h : Hierarchy M) (p c : M) (idx : Option Nat) :
    Hierarchy M × RelResult M :=
  match fuel with
  | 0 => (h, RelResult.loopErr)
  | fuel + 1 =>
    if p = c then (h, RelResult.loopErr)
    else if (mapGet h.childrenMap c).isSome ∧ p ∈ descList h.childrenMap c then
      (h, RelResult.cycleErr)
    else
      let h1 := if (mapGet h.childrenMap p).isSome then h
                else (createRelF fuel h h.hierarch p none).1
      let h2 := addMember h1 c
      let le := positionList (childrenOf h2.childrenMap p) c idx
      (⟨h2.hierarch, mapSet h2.childrenMap p le.1⟩, RelResult.rel p c le.2)

/-- `#createRelationship` at its sufficient fuel. -/
def createRelationship (h : Hierarchy M) (p c : M) (idx : Option Nat) :
    Hierarchy M × RelResult M :=
  createRelF 3 h p c idx

/-- The batch insertion phase of `relate`: map `#createRelationship`
over the triples, threading the state, collecting results in order. -/
def relatePhase (h : Hierarchy M) (args : List (M × M × Option Nat)) :
    Hierarchy M × List (RelResult M) :=
  args.foldl
    (fun st a =>
      let r := createRelationship st.1 a.1 a.2.1 a.2.2
      (r.1, st.2 ++ [r.2]))
    (h, [])

/-- `relate(relationships)`: run every insertion, then `#reduce` once. -/
def relate (h : Hierarchy M) (args : List (M × M × Option Nat)) :
    Hierarchy M × List (RelResult M) :=
  (reduceOp (relatePhase h args).1, (relatePhase h args).2)

/-- The intermediate map of `unrelate` (after filtering the child out of
the parent's list, before the orphan check). -/
def unrelStep (cm : CMap M) (p c : M) : CMap M :=
  mapSet cm p ((childrenOf cm p).filter (fun x => x ≠ c))

/-- `new OrderedOverlappingHierarchy(0)` then `relate` grandparent→parent
and parent→child: the three-member chain `0 → 1 → 2` of the test suite. -/
def familyH : Hierarchy Nat :=
  (relate (relate (ofHierarch 0) [(0, 1, none)]).1 [(1, 2, none)]).1

/-! ## Reachability

`Reaches cm a b` is graph reachability (at least one edge) through the
children map — the relation the recursive JS `descendants` computes
whenever it terminates.  `ChainL cm a l b` spells out a witnessing path:
`l` is the list of intermediate nodes. -/

/-- Reachability through children edges, one or more steps. -/
inductive Reaches (cm : CMap M) : M → M → Prop
  | single {a b : M} : b ∈ childrenOf cm a → Reaches cm a b
  | cons {a b c : M} : b ∈ childrenOf cm a → Reaches cm b c → Reaches cm a c

/-- `ChainL cm a l b`: a path from `a` to `b` whose intermediate nodes
are exactly the list `l`. -/
def ChainL (cm : CMap M) : M → List M → M → Prop
  | a, [], b => b ∈ childrenOf cm a
  | a, x :: l, b => x ∈ childrenOf cm a ∧ ChainL cm x l b

/-- A topological height: the number of distinct descendants.  On an
acyclic map it strictly decreases along every reachability step. -/
def heightOf (cm : CMap M) (m : M) : Nat :=
  (descList cm m).toFinset.card

/-! ## State invariants

These predicates hold of every state the public API can produce while the
JS code runs without crashing; individual theorems assume exactly the ones
their proofs need.  All are decidable so that witnesses can check them on
concrete hierarchies. -/

/-- The association list holds each key at most once (a JS `Map` always
does). -/
def KeysNodup (cm : CMap M) : Prop := (keys cm).Nodup

instance (cm : CMap M) : Decidable (KeysNodup cm) :=
  inferInstanceAs (Decidable ((keys cm).Nodup))

/-- No child list holds a duplicate entry. -/
def ListsNodup (cm : CMap M) : Prop := ∀ e ∈ cm, (Prod.snd e).Nodup

instance (cm : CMap M) : Decidable (ListsNodup cm) :=
  inferInstanceAs (Decidable (∀ e ∈ cm, (Prod.snd e).Nodup))

/-- Every entry of a child list is itself a key of the map. -/
def ListClosed (cm : CMap M) : Prop := ∀ e ∈ cm, ∀ c ∈ Prod.snd e, c ∈ keys cm

instance (cm : CMap M) : Decidable (ListClosed cm) :=
  inferInstanceAs (Decidable (∀ e ∈ cm, ∀ c ∈ Prod.snd e, c ∈ keys cm))

/-- No member lists itself as its own child. -/
def NoSelf (cm : CMap M) : Prop := ∀ e ∈ cm, Prod.fst e ∉ Prod.snd e

instance (cm : CMap M) : Decidable (NoSelf cm) :=
  inferInstanceAs (Decidable (∀ e ∈ cm, Prod.fst e ∉ Prod.snd e))

/-- The structural well-formedness of the children map alone. -/
def WFmap (cm : CMap M) : Prop :=
  KeysNodup cm ∧ ListsNodup cm ∧ ListClosed cm ∧ NoSelf cm

instance (cm : CMap M) : Decidable (WFmap cm) :=
  inferInstanceAs (Decidable (_ ∧ _ ∧ _ ∧ _))

/-- The structural well-formedness bundle, plus hierarch membership. -/
def Inv (h : Hierarchy M) : Prop :=
  WFmap h.childrenMap ∧ h.hierarch ∈ keys h.childrenMap

instance (h : Hierarchy M) : Decidable (Inv h) :=
  inferInstanceAs (Decidable (_ ∧ _))

/-- The map with the single stored edge `(p, c)` removed (the first
occurrence of `c` dropped from `p`'s child list): the graph a stored
edge must not be redundant against. -/
def eraseEdge (cm : CMap M) (p c : M) : CMap M :=
  mapSet cm p (eraseFirst (childrenOf cm p) c)

/-- Acyclicity in the executable form the code itself can check: no key
is in its own descendant list. -/
def AcyclicL (cm : CMap M) : Prop := ∀ m ∈ keys cm, m ∉ descList cm m

instance (cm : CMap M) : Decidable (AcyclicL cm) :=
  inferInstanceAs (Decidable (∀ m ∈ keys cm, m ∉ descList cm m))

/-- The state is a fixed point of `#reduce`: no stored relationship is
flagged as transitive. -/
def Reduced (h : Hierarchy M) : Prop :=
  ∀ r ∈ relationships h, isTransitiveRel h r.1 r.2.1 = false

instance (h : Hierarchy M) : Decidable (Reduced h) :=
  inferInstanceAs (Decidable (∀ r ∈ relationships h, _ = false))

/-- The hierarch appears in no child list (it has no parents). -/
def NoParentHier (h : Hierarchy M) : Prop :=
  ∀ e ∈ h.childrenMap, h.hierarch ∉ Prod.snd e

instance (h : Hierarchy M) : Decidable (NoParentHier h) :=
  inferInstanceAs (Decidable (∀ e ∈ h.childrenMap, h.hierarch ∉ Prod.snd e))

/-- Every member other than the hierarch is a descendant of the hierarch. -/
def AllReach (h : Hierarchy M) : Prop :=
  ∀ m ∈ keys h.childrenMap, m = h.hierarch ∨ m ∈ descList h.childrenMap h.hierarch

instance (h : Hierarchy M) : Decidable (AllReach h) :=
  inferInstanceAs (Decidable (∀ m ∈ keys h.childrenMap, _ ∨ _))

/-! ## Association-map laws -/

theorem mapGet_set_self (cm : CMap M) (k : M) (v : List M) :
    mapGet (mapSet cm k v) k = some v := by
  induction cm with
  | nil => simp [mapSet, mapGet]
  | cons e rest ih =>
    by_cases hk : e.1 = k
    · simp [mapSet, hk, mapGet]
    · simp [mapSet, hk, mapGet, ih]

theorem mapGet_set_ne (cm : CMap M) (k k' : M) (v : List M) (hne : k ≠ k') :
    mapGet (mapSet cm k v) k' = mapGet cm k' := by
  induction cm with
  | nil => simp [mapSet, mapGet, hne]
  | cons e rest ih =>
    by_cases hk : e.1 = k
    · subst hk; simp [mapSet, mapGet, hne, ih]
    · by_cases hk' : e.1 = k'
      · simp [mapSet, mapGet, hk, hk', Ne.symm hne]
      · simp [mapSet, mapGet, hk, hk', ih]

theorem mapGet_isSome_iff (cm : CMap M) (k : M) :
    (mapGet cm k).isSome = true ↔ k ∈ keys cm := by
  induction cm with
  | nil => simp [mapGet, keys]
  | cons e rest ih =>
    by_cases hk : e.1 = k
    · simp [mapGet, keys, hk]
    · simp [mapGet, keys, hk, ih, Ne.symm hk]

theorem mapGet_eq_none_of_not_mem (cm : CMap M) (k : M) (hk : k ∉ keys cm) :
    mapGet cm k = none := by
  cases hg : mapGet cm k with
  | none => rfl
  | some v =>
    exact absurd ((mapGet_isSome_iff cm k).1 (by simp [hg])) hk

theorem mapGet_mem (cm : CMap M) (k : M) (v : List M) (hg : mapGet cm k = some v) :
    (k, v) ∈ cm := by
  induction cm with
  | nil => simp [mapGet] at hg
  | cons e rest ih =>
    by_cases hk : e.1 = k
    · subst hk
      simp [mapGet] at hg
      subst hg
      simp
    · simp [mapGet, hk] at hg
      exact List.mem_cons_of_mem _ (ih hg)

theorem keys_set_mem (cm : CMap M) (k : M) (v : List M) (hk : k ∈ keys cm) :
    keys (mapSet cm k v) = keys cm := by
  induction cm with
  | nil => simp [keys] at hk
  | cons e rest ih =>
    by_cases he : e.1 = k
    · simp [mapSet, he, keys]
    · have hk2 : k = e.1 ∨ k ∈ keys rest := by simpa [keys] using hk
      have h2 : k ∈ keys rest := by
        rcases hk2 with h | h
        · exact absurd h.symm he
        · exact h
      have ih2 := ih h2
      simp only [keys] at ih2 ⊢
      simp [mapSet, he, ih2]

theorem keys_set_not_mem (cm : CMap M) (k : M) (v : List M) (hk : k ∉ keys cm) :
    keys (mapSet cm k v) = keys cm ++ [k] := by
  induction cm with
  | nil => simp [mapSet, keys]
  | cons e rest ih =>
    have h1 : ¬ e.1 = k := fun he => hk (by simp [keys, he])
    have h2 : k ∉ keys rest := fun hm => hk (by simp [keys]; exact Or.inr (by simpa [keys] using hm))
    have ih2 := ih h2
    simp only [keys] at ih2 ⊢
    simp [mapSet, h1, ih2]

theorem mem_keys_set (cm : CMap M) (k k' : M) (v : List M) :
    k' ∈ keys (mapSet cm k v) ↔ k' ∈ keys cm ∨ k' = k := by
  by_cases hk : k ∈ keys cm
  · rw [keys_set_mem cm k v hk]
    constructor
    · exact Or.inl
    · rintro (hm | rfl)
      · exact hm
      · exact hk
  · rw [keys_set_not_mem cm k v hk]
    simp

theorem mapGet_delete_self (cm : CMap M) (k : M) :
    mapGet (mapDelete cm k) k = none := by
  induction cm with
  | nil => simp [mapDelete, mapGet]
  | cons e rest ih =>
    by_cases he : e.1 = k
    · simpa [mapDelete, List.filter, he] using ih
    · simpa [mapDelete, List.filter, he, mapGet] using ih

theorem mapGet_delete_ne (cm : CMap M) (k k' : M) (hne : k ≠ k') :
    mapGet (mapDelete cm k) k' = mapGet cm k' := by
  induction cm with
  | nil => simp [mapDelete, mapGet]
  | cons e rest ih =>
    by_cases he : e.1 = k
    · subst he
      simpa [mapDelete, List.filter, mapGet, hne] using ih
    · by_cases he' : e.1 = k'
      · simp [mapDelete, List.filter, he, he', mapGet, Ne.symm hne]
      · simpa [mapDelete, List.filter, mapGet, he, he'] using ih

theorem keys_delete (cm : CMap M) (k : M) :
    keys (mapDelete cm k) = (keys cm).filter (fun x => x ≠ k) := by
  induction cm with
  | nil => simp [mapDelete, keys]
  | cons e rest ih =>
    by_cases he : e.1 = k
    · simpa [mapDelete, keys, List.filter, he] using ih
    · simpa [mapDelete, keys, List.filter, he] using ih

theorem mapSet_id (cm : CMap M) (k : M) (v : List M) (hg : mapGet cm k = some v) :
    mapSet cm k v = cm := by
  induction cm with
  | nil => simp [mapGet] at hg
  | cons e rest ih =>
    by_cases he : e.1 = k
    · subst he
      simp [mapGet] at hg
      subst hg
      simp [mapSet]
    · simp [mapGet, he] at hg
      simp [mapSet, he, ih hg]

theorem childrenOf_set_self (cm : CMap M) (k : M) (v : List M) :
    childrenOf (mapSet cm k v) k = v := by
  simp [childrenOf, mapGet_set_self]

theorem childrenOf_set_ne (cm : CMap M) (k k' : M) (v : List M) (hne : k ≠ k') :
    childrenOf (mapSet cm k v) k' = childrenOf cm k' := by
  simp [childrenOf, mapGet_set_ne cm k k' v hne]

theorem childrenOf_of_not_mem (cm : CMap M) (k : M) (hk : k ∉ keys cm) :
    childrenOf cm k = [] := by
  simp [childrenOf, mapGet_eq_none_of_not_mem cm k hk]

theorem childrenOf_delete_ne (cm : CMap M) (k k' : M) (hne : k ≠ k') :
    childrenOf (mapDelete cm k) k' = childrenOf cm k' := by
  simp [childrenOf, mapGet_delete_ne cm k k' hne]

theorem childrenOf_delete_self (cm : CMap M) (k : M) :
    childrenOf (mapDelete cm k) k = [] := by
  simp [childrenOf, mapGet_delete_self]

theorem mem_parentsOf (cm : CMap M) (m q : M) :
    q ∈ parentsOf cm m ↔ q ∈ keys cm ∧ m ∈ childrenOf cm q := by
  simp [parentsOf, List.mem_filter]

theorem childrenOf_subset_keys (cm : CMap M) (hLC : ListClosed cm) (q : M) :
    ∀ c ∈ childrenOf cm q, c ∈ keys cm := by
  intro c hc
  by_cases hq : q ∈ keys cm
  · cases hg : mapGet cm q with
    | none => simp [childrenOf, hg] at hc
    | some l =>
      exact hLC (q, l) (mapGet_mem cm q l hg) c (by simpa [childrenOf, hg] using hc)
  · simp [childrenOf_of_not_mem cm q hq] at hc

/-! ## `unrelate`: basic shape -/

/-- `unrelate` written without the `let`s. -/
theorem unrelate_eq (h : Hierarchy M) (p c : M) :
    unrelate h p c = ⟨h.hierarch,
      if (mapGet (unrelStep h.childrenMap p c) c).isSome ∧
          (parentsOf (unrelStep h.childrenMap p c) c).isEmpty
      then mapDelete (unrelStep h.childrenMap p c) c
      else unrelStep h.childrenMap p c⟩ := rfl

theorem unrelate_hierarch (h : Hierarchy M) (p c : M) :
    (unrelate h p c).hierarch = h.hierarch := rfl

theorem childrenOf_unrelStep (cm : CMap M) (p c x : M) :
    childrenOf (unrelStep cm p c) x =
      if x = p then (childrenOf cm p).filter (fun y => y ≠ c) else childrenOf cm x := by
  by_cases hx : x = p
  · subst hx; simp [unrelStep, childrenOf_set_self]
  · simp [unrelStep, hx, childrenOf_set_ne cm p x _ (fun he => hx he.symm)]

/-- Pointwise: `unrelate` only ever shrinks child lists, and certainly
removes the pair `(p, c)`. -/
theorem childrenOf_unrelate_subset (h : Hierarchy M) (p c x y : M)
    (hy : y ∈ childrenOf (unrelate h p c).childrenMap x) :
    y ∈ childrenOf h.childrenMap x ∧ ¬(x = p ∧ y = c) := by
  rw [unrelate_eq] at hy
  simp only at hy
  have step : y ∈ childrenOf (unrelStep h.childrenMap p c) x →
      y ∈ childrenOf h.childrenMap x ∧ ¬(x = p ∧ y = c) := by
    intro hmem
    rw [childrenOf_unrelStep] at hmem
    by_cases hx : x = p
    · rw [if_pos hx] at hmem
      have := List.mem_filter.1 hmem
      refine ⟨by rw [hx]; exact this.1, ?_⟩
      rintro ⟨rfl, rfl⟩
      simp at this
    · rw [if_neg hx] at hmem
      exact ⟨hmem, fun hc => hx hc.1⟩
  by_cases hdel : (mapGet (unrelStep h.childrenMap p c) c).isSome ∧
      (parentsOf (unrelStep h.childrenMap p c) c).isEmpty
  · rw [if_pos hdel] at hy
    by_cases hxc : x = c
    · subst hxc; rw [childrenOf_delete_self] at hy; simp at hy
    · rw [childrenOf_delete_ne _ _ _ (fun he => hxc he.symm)] at hy
      exact step hy
  · rw [if_neg hdel] at hy
    exact step hy

/-! ## Claim C2 — acyclicity (refuted by the code) -/

/-- C2 (code bug): acyclicity is claimed to be an invariant of every
state reachable through the public API, in particular under `relate`
calls whose parent is not yet a member.  The code violates it: on
`new OrderedOverlappingHierarchy(0)`, the single call
`relate([{parent: 1, child: 0}])` first implicitly attaches the fresh
parent `1` under the hierarch `0` — after the cycle check for the pair
has already passed — and then stores `0` as a child of `1`, producing the
two-cycle `0 → 1 → 0`; the reduction pass keeps it, so `0` ends up in its
own descendant list. -/
theorem relate_fresh_parent_creates_cycle :
    (relate (ofHierarch (0 : Nat)) [(1, 0, none)]).1.childrenMap = [(0, [1]), (1, [0])] ∧
      0 ∈ descList (relate (ofHierarch (0 : Nat)) [(1, 0, none)]).1.childrenMap 0 := by
  decide

/-! ## Claim C3 — unrelate(hierarch, hierarch) (refuted by the code) -/

/-- C3 (code bug): `unrelate({parent: hierarch, child: hierarch})` is
documented as a harmless no-op that keeps the hierarch a member.  The
code instead runs the orphan check on the hierarch, which has no parents,
and deletes its entry: on a fresh hierarchy the member set becomes empty. -/
theorem unrelate_hierarch_self_deletes_hierarch :
    members (ofHierarch (0 : Nat)) = [0] ∧
      members (unrelate (ofHierarch (0 : Nat)) 0 0) = [] := by
  decide

/-! ## Claim C4 — re-relate keeps the old index (refuted by the code) -/

/-- C4 (counterexample): with `children(0) = [1, 2]`, re-relating the
existing child `1` with no explicit index is claimed to keep it at
position 0; the code computes the effective index (`array.length`)
before removing the old occurrence, so `1` moves to the end:
`children(0) = [2, 1]`. -/
theorem re_relate_moves_child_to_end :
    children (relate (ofHierarch (0 : Nat)) [(0, 1, none), (0, 2, none)]).1 0 = some [1, 2] ∧
      children (relate (relate (ofHierarch (0 : Nat)) [(0, 1, none), (0, 2, none)]).1
        [(0, 1, none)]).1 0 = some [2, 1] := by
  decide

/-! ## Claim C5 — returned index reflects final position (refuted) -/

/-- C5 (counterexample): with `children(0) = [1]`, the call
`relate([{parent: 0, child: 2, childIndex: 5}])` is claimed to return the
child's final position; the insertion is clamped (the child lands at
position 1, `children(0) = [1, 2]`) but the returned `childIndex` is the
raw requested value 5. -/
theorem relate_returns_unclamped_index :
    (relate (relate (ofHierarch (0 : Nat)) [(0, 1, none)]).1 [(0, 2, some 5)]).2 =
        [RelResult.rel 0 2 5] ∧
      children (relate (relate (ofHierarch (0 : Nat)) [(0, 1, none)]).1
        [(0, 2, some 5)]).1 0 = some [1, 2] := by
  decide

/-! ## Claim C10 — unrelate with a missing parent adds it -/

/-- C10: for distinct `p ≠ c` with `p` not a member, `unrelate({parent:
p, child: c})` adds `p` to `members()` as a member with an empty child
list and no parents (the `children(parent)?.filter(...) || []` fallback
stores `[]` under the missing key). -/
theorem unrelate_missing_parent_becomes_member (h : Hierarchy M) (p c : M)
    (hInv : Inv h) (hp : p ∉ members h) (hpc : p ≠ c) :
    p ∈ members (unrelate h p c) ∧ children (unrelate h p c) p = some [] ∧
      parents (unrelate h p c) p = some [] := by
  obtain ⟨⟨hKN, hLN, hLC, hNS⟩, hHM⟩ := hInv
  have hpk : p ∉ keys h.childrenMap := hp
  have hflt : (childrenOf h.childrenMap p).filter (fun x => x ≠ c) = [] := by
    rw [childrenOf_of_not_mem _ p hpk]; rfl
  have hstep : unrelStep h.childrenMap p c = mapSet h.childrenMap p [] := by
    rw [unrelStep, hflt]
  -- facts about the final map, uniform in the orphan-check branch
  have hget : mapGet (unrelate h p c).childrenMap p = some [] := by
    rw [unrelate_eq]
    by_cases hdel : (mapGet (unrelStep h.childrenMap p c) c).isSome ∧
        (parentsOf (unrelStep h.childrenMap p c) c).isEmpty
    · simp only [if_pos hdel]
      rw [mapGet_delete_ne _ c p (fun he => hpc he.symm), hstep, mapGet_set_self]
    · simp only [if_neg hdel]
      rw [hstep, mapGet_set_self]
  have hnochild : ∀ n, p ∉ childrenOf (unrelate h p c).childrenMap n := by
    intro n hmem
    have := childrenOf_unrelate_subset h p c n p hmem
    by_cases hnp : n = p
    · have h1 := this.1
      rw [hnp, childrenOf_of_not_mem _ p hpk] at h1
      simp at h1
    · exact hpk (childrenOf_subset_keys h.childrenMap hLC n p this.1)
  have hmemb : p ∈ members (unrelate h p c) := by
    have : (mapGet (unrelate h p c).childrenMap p).isSome = true := by simp [hget]
    exact (mapGet_isSome_iff _ p).1 this
  refine ⟨hmemb, ?_, ?_⟩
  · simp [children, hget]
  · have hsome : (mapGet (unrelate h p c).childrenMap p).isSome = true := by simp [hget]
    rw [parents, if_pos hsome]
    have : parentsOf (unrelate h p c).childrenMap p = [] := by
      apply List.filter_eq_nil_iff.2
      intro n hn
      simp only [decide_eq_true_eq]
      exact fun hc => hnochild n hc
    rw [this]

/-! ## Claim C8 — removing the only parent deletes the member, not its
children -/

/-- C8: when `c`'s parent set is exactly `{p}`, `unrelate({parent: p,
child: c})` removes `c` from the member set entirely, while every child
of `c` stays a member (no recursive removal). -/
theorem unrelate_only_parent_removes_member (h : Hierarchy M) (p c : M)
    (hInv : Inv h) (hpar : parents h c = some [p]) (hch : c ≠ h.hierarch) :
    c ∉ members (unrelate h p c) ∧
      ∀ x ∈ (children h c).getD [], x ∈ members (unrelate h p c) := by
  obtain ⟨⟨hKN, hLN, hLC, hNS⟩, hHM⟩ := hInv
  -- unpack the parents hypothesis
  have hcsome : (mapGet h.childrenMap c).isSome = true := by
    by_contra hns
    rw [parents, if_neg hns] at hpar
    exact Option.noConfusion hpar
  have hck : c ∈ keys h.childrenMap := (mapGet_isSome_iff _ c).1 hcsome
  have hpOf : parentsOf h.childrenMap c = [p] := by
    rw [parents, if_pos hcsome] at hpar
    exact Option.some.inj hpar
  have hedge : c ∈ childrenOf h.childrenMap p ∧ p ∈ keys h.childrenMap := by
    have : p ∈ parentsOf h.childrenMap c := by rw [hpOf]; simp
    have := (mem_parentsOf h.childrenMap c p).1 this
    exact ⟨this.2, this.1⟩
  have hcp : c ≠ p := by
    intro he
    subst he
    cases hg : mapGet h.childrenMap c with
    | none => rw [hg] at hcsome; simp at hcsome
    | some l =>
      have hm := mapGet_mem h.childrenMap c l hg
      have := hNS (c, l) hm
      have h1 := hedge.1
      rw [childrenOf, hg] at h1
      exact this h1
  -- after the filter step, c has no parents and is still a member
  have hnopar : parentsOf (unrelStep h.childrenMap p c) c = [] := by
    apply List.filter_eq_nil_iff.2
    intro n hn
    simp only [decide_eq_true_eq]
    intro hcn
    rw [childrenOf_unrelStep] at hcn
    by_cases hnp : n = p
    · rw [if_pos hnp] at hcn
      have := List.mem_filter.1 hcn
      simp at this
    · rw [if_neg hnp] at hcn
      have : n ∈ parentsOf h.childrenMap c := by
        apply (mem_parentsOf h.childrenMap c n).2
        refine ⟨?_, hcn⟩
        cases hg : mapGet h.childrenMap n with
        | none => rw [childrenOf, hg] at hcn; simp at hcn
        | some l => exact (mapGet_isSome_iff _ n).1 (by simp [hg])
      rw [hpOf] at this
      simp at this
      exact hnp this
  have hcsome1 : (mapGet (unrelStep h.childrenMap p c) c).isSome = true := by
    rw [unrelStep, mapGet_set_ne _ p c _ (fun he => hcp he.symm)]
    exact hcsome
  have hdel : (mapGet (unrelStep h.childrenMap p c) c).isSome ∧
      (parentsOf (unrelStep h.childrenMap p c) c).isEmpty := by
    refine ⟨hcsome1, ?_⟩
    rw [hnopar]; rfl
  have hfin : (unrelate h p c).childrenMap = mapDelete (unrelStep h.childrenMap p c) c := by
    rw [unrelate_eq, if_pos hdel]
  constructor
  · intro hmem
    rw [members, hfin, keys_delete] at hmem
    have := List.mem_filter.1 hmem
    simp at this
  · intro x hx
    have hxch : x ∈ childrenOf h.childrenMap c := by
      cases hg : mapGet h.childrenMap c with
      | none => rw [hg] at hcsome; simp at hcsome
      | some l => rw [childrenOf, hg]; simpa [children, hg] using hx
    have hxk : x ∈ keys h.childrenMap := childrenOf_subset_keys h.childrenMap hLC c x hxch
    have hxc : x ≠ c := by
      intro he
      subst he
      cases hg : mapGet h.childrenMap x with
      | none => rw [hg] at hcsome; simp at hcsome
      | some l =>
        have hm := mapGet_mem h.childrenMap x l hg
        exact hNS (x, l) hm (by rw [childrenOf, hg] at hxch; exact hxch)
    rw [members, hfin, keys_delete]
    apply List.mem_filter.2
    refine ⟨?_, by simpa using hxc⟩
    rw [unrelStep]
    rw [(mem_keys_set h.childrenMap p x _)]
    exact Or.inl hxk

/-! ## List lemmas for the positioning primitive -/

theorem eraseFirst_of_not_mem (l : List M) (m : M) (hm : m ∉ l) :
    eraseFirst l m = l := by
  induction l with
  | nil => rfl
  | cons x xs ih =>
    simp at hm
    push_neg at hm
    rw [eraseFirst, if_neg (fun he => hm.1 he.symm), ih hm.2]

theorem not_mem_eraseFirst_of_nodup (l : List M) (m : M) (hnd : l.Nodup) :
    m ∉ eraseFirst l m := by
  induction l with
  | nil => simp [eraseFirst]
  | cons x xs ih =>
    rw [List.nodup_cons] at hnd
    by_cases hx : x = m
    · subst hx
      rw [eraseFirst, if_pos rfl]
      exact hnd.1
    · rw [eraseFirst, if_neg hx]
      intro hmem
      rcases List.mem_cons.1 hmem with h | h
      · exact hx h.symm
      · exact ih hnd.2 h

theorem mem_eraseFirst_imp (l : List M) (m x : M) (hx : x ∈ eraseFirst l m) :
    x ∈ l := by
  induction l with
  | nil => simpa [eraseFirst] using hx
  | cons y ys ih =>
    by_cases hy : y = m
    · rw [eraseFirst, if_pos hy] at hx
      exact List.mem_cons_of_mem _ hx
    · rw [eraseFirst, if_neg hy] at hx
      rcases List.mem_cons.1 hx with h | h
      · exact h ▸ List.mem_cons_self _ _
      · exact List.mem_cons_of_mem _ (ih h)

theorem nodup_eraseFirst (l : List M) (m : M) (hnd : l.Nodup) :
    (eraseFirst l m).Nodup := by
  induction l with
  | nil => simpa [eraseFirst] using hnd
  | cons y ys ih =>
    rw [List.nodup_cons] at hnd
    by_cases hy : y = m
    · rw [eraseFirst, if_pos hy]; exact hnd.2
    · rw [eraseFirst, if_neg hy, List.nodup_cons]
      exact ⟨fun hmem => hnd.1 (mem_eraseFirst_imp ys m y hmem), ih hnd.2⟩

theorem spliceInsert_nil (n : Nat) (m : M) : spliceInsert ([] : List M) n m = [m] := by
  cases n <;> rfl

theorem spliceInsert_of_ge (l : List M) (n : Nat) (m : M) (hn : l.length ≤ n) :
    spliceInsert l n m = l ++ [m] := by
  induction l generalizing n with
  | nil => simp [spliceInsert_nil]
  | cons x xs ih =>
    cases n with
    | zero => simp at hn
    | succ n =>
      rw [spliceInsert, ih n (by simpa using hn)]
      rfl

theorem mem_spliceInsert (l : List M) (n : Nat) (m x : M) :
    x ∈ spliceInsert l n m ↔ x = m ∨ x ∈ l := by
  induction l generalizing n with
  | nil => rw [spliceInsert_nil]; simp
  | cons y ys ih =>
    cases n with
    | zero => rw [spliceInsert]; simp
    | succ n =>
      rw [spliceInsert]
      simp only [List.mem_cons, ih n]
      tauto

theorem nodup_spliceInsert (l : List M) (n : Nat) (m : M) (hnd : l.Nodup)
    (hm : m ∉ l) : (spliceInsert l n m).Nodup := by
  induction l generalizing n with
  | nil => rw [spliceInsert_nil]; simp
  | cons y ys ih =>
    simp at hm
    push_neg at hm
    rw [List.nodup_cons] at hnd
    cases n with
    | zero =>
      rw [spliceInsert, List.nodup_cons]
      refine ⟨?_, List.nodup_cons.2 hnd⟩
      simp
      exact hm
    | succ n =>
      rw [spliceInsert, List.nodup_cons]
      refine ⟨?_, ih n hnd.2 hm.2⟩
      rw [mem_spliceInsert]
      rintro (he | hmem)
      · exact hm.1 he.symm
      · exact hnd.1 hmem

theorem findIdx_spliceInsert (l : List M) (n : Nat) (c : M) (hc : c ∉ l) :
    (spliceInsert l n c).findIdx (fun x => x = c) = min n l.length := by
  induction l generalizing n with
  | nil => rw [spliceInsert_nil]; simp [List.findIdx_cons]
  | cons x xs ih =>
    simp at hc
    push_neg at hc
    cases n with
    | zero => simp [spliceInsert, List.findIdx_cons]
    | succ n =>
      rw [spliceInsert, List.findIdx_cons]
      have hx : (fun y => decide (y = c)) x = false := by
        simp
        exact fun he => hc.1 he.symm
      simp only [hx, cond_false]
      rw [ih n hc.2]
      simp [Nat.succ_min_succ]

/-! ## `#reduce` on an already reduced state -/

theorem flaggedRels_eq_nil (h : Hierarchy M) (hred : Reduced h) :
    flaggedRels h = [] := by
  apply List.filter_eq_nil_iff.2
  intro r hr
  simp [hred r hr]

theorem reduceOp_of_reduced (h : Hierarchy M) (hred : Reduced h) :
    reduceOp h = h := by
  rw [reduceOp, flaggedRels_eq_nil h hred]
  rfl

theorem relatePhase_single (h : Hierarchy M) (p c : M) (idx : Option Nat) :
    relatePhase h [(p, c, idx)] =
      ((createRelationship h p c idx).1, [(createRelationship h p c idx).2]) := by
  simp [relatePhase]

/-! ## `#createRelationship`: case characterisations -/

theorem createRelationship_loop (h : Hierarchy M) (p : M) (idx : Option Nat) :
    createRelationship h p p idx = (h, RelResult.loopErr) := by
  rw [createRelationship, createRelF, if_pos rfl]

theorem createRelationship_cycle (h : Hierarchy M) (p c : M) (idx : Option Nat)
    (hpc : p ≠ c)
    (hcyc : (mapGet h.childrenMap c).isSome = true ∧ p ∈ descList h.childrenMap c) :
    createRelationship h p c idx = (h, RelResult.cycleErr) := by
  rw [createRelationship, createRelF, if_neg hpc, if_pos hcyc]

/-- Success with a parent that is already a member: the child is
registered, then positioned; the raw effective index is reported. -/
theorem createRelationship_success_member (h : Hierarchy M) (p c : M) (idx : Option Nat)
    (hpc : p ≠ c)
    (hcyc : ¬((mapGet h.childrenMap c).isSome = true ∧ p ∈ descList h.childrenMap c))
    (hpm : (mapGet h.childrenMap p).isSome = true) :
    createRelationship h p c idx =
      (⟨h.hierarch, mapSet (addMember h c).childrenMap p
          (spliceInsert (eraseFirst (childrenOf h.childrenMap p) c)
            (idx.getD (childrenOf h.childrenMap p).length) c)⟩,
        RelResult.rel p c (idx.getD (childrenOf h.childrenMap p).length)) := by
  have hchad : childrenOf (mapSet h.childrenMap c (childrenOf h.childrenMap c)) p =
      childrenOf h.childrenMap p :=
    childrenOf_set_ne _ c p _ (fun he => hpc he.symm)
  rw [createRelationship, createRelF, if_neg hpc, if_neg hcyc]
  simp only [hpm, if_true, positionList, addMember]
  rw [hchad]

/-- Success with a missing parent: the parent is first attached under
the hierarch (appended to the hierarch's child list), then the child is
positioned under it. -/
theorem createRelationship_success_fresh (h : Hierarchy M) (p c : M) (idx : Option Nat)
    (hpc : p ≠ c)
    (hcyc : ¬((mapGet h.childrenMap c).isSome = true ∧ p ∈ descList h.childrenMap c))
    (hpm : mapGet h.childrenMap p = none)
    (hH : h.hierarch ∈ keys h.childrenMap)
    (hLC : ListClosed h.childrenMap) :
    createRelationship h p c idx =
      (⟨h.hierarch, mapSet
          (addMember ⟨h.hierarch, mapSet (mapSet h.childrenMap p [])
              h.hierarch (childrenOf h.childrenMap h.hierarch ++ [p])⟩ c).childrenMap p
          (spliceInsert (eraseFirst (childrenOf h.childrenMap p) c)
            (idx.getD (childrenOf h.childrenMap p).length) c)⟩,
        RelResult.rel p c (idx.getD (childrenOf h.childrenMap p).length)) := by
  have hpk : p ∉ keys h.childrenMap := by
    intro hm
    have := (mapGet_isSome_iff h.childrenMap p).2 hm
    rw [hpm] at this
    simp at this
  have hpH : p ≠ h.hierarch := fun he => hpk (he ▸ hH)
  have hchp : childrenOf h.childrenMap p = [] := childrenOf_of_not_mem _ p hpk
  have hHs : (mapGet h.childrenMap h.hierarch).isSome = true :=
    (mapGet_isSome_iff _ _).2 hH
  have hpnotinH : p ∉ childrenOf h.childrenMap h.hierarch :=
    fun hmem => hpk (childrenOf_subset_keys h.childrenMap hLC h.hierarch p hmem)
  have hinner : createRelF 2 h h.hierarch p none =
      (⟨h.hierarch, mapSet (mapSet h.childrenMap p []) h.hierarch
          (childrenOf h.childrenMap h.hierarch ++ [p])⟩,
        RelResult.rel h.hierarch p (childrenOf h.childrenMap h.hierarch).length) := by
    rw [createRelF, if_neg (fun he => hpH he.symm), if_neg (by simp [hpm])]
    simp only [hHs, if_true, addMember, hchp, positionList, Option.getD_none]
    rw [childrenOf_set_ne h.childrenMap p h.hierarch [] hpH,
      eraseFirst_of_not_mem _ p hpnotinH,
      spliceInsert_of_ge _ _ p (le_refl _)]
  rw [createRelationship, createRelF, if_neg hpc, if_neg hcyc]
  rw [if_neg (by simp [hpm])]
  rw [hinner]
  simp only [addMember, positionList, hchp]
  rw [childrenOf_set_ne _ c p _ (fun he => hpc he.symm),
    childrenOf_set_ne _ h.hierarch p _ (fun he => hpH he.symm),
    childrenOf_set_self]

/-! ## Claim C6 — relating an ancestor as a child yields CycleError -/

/-- C6: when `c` is already a member and `p` is currently one of `c`'s
descendants, `relate([{parent: p, child: c}])` returns `CycleError` for
the triple and leaves the hierarchy exactly as it was (the insertion is
rejected before any mutation, and on a reduced state the final `#reduce`
pass removes nothing).  `p ≠ c` because the loop check precedes the
cycle check. -/
theorem relate_ancestor_as_child_cycle_error (h : Hierarchy M) (p c : M) (idx : Option Nat)
    (hred : Reduced h) (hpc : p ≠ c)
    (hc : (children h c).isSome = true) (hdesc : p ∈ (descendants h c).getD []) :
    relate h [(p, c, idx)] = (h, [RelResult.cycleErr]) := by
  have hcs : (mapGet h.childrenMap c).isSome = true := hc
  have hdl : p ∈ descList h.childrenMap c := by
    rw [descendants, if_pos hcs] at hdesc
    simpa using hdesc
  have hcr := createRelationship_cycle h p c idx hpc ⟨hcs, hdl⟩
  simp only [relate, relatePhase_single, hcr]
  rw [reduceOp_of_reduced h hred]

/-- Witness: on the grandparent→parent→child chain `0 → 1 → 2`,
relating the grandparent `0` as a child of `2` is rejected with
`CycleError` and the structure is unchanged. -/
theorem relate_ancestor_as_child_cycle_error_witness :
    Reduced familyH ∧ (2 : Nat) ≠ 0 ∧ (children familyH 0).isSome = true ∧
      (2 : Nat) ∈ (descendants familyH 0).getD [] ∧
      relate familyH [(2, 0, none)] = (familyH, [RelResult.cycleErr]) :=
  ⟨by decide, by decide, by decide, by decide,
    relate_ancestor_as_child_cycle_error familyH 2 0 none (by decide) (by decide)
      (by decide) (by decide)⟩

/-! ## Claim C5 (amended) — what the returned childIndex really is -/

/-- C5 (amended): for a successful triple the returned `childIndex` is
the raw effective index `childIndex ?? children(parent).length`, computed
on the list as it is before the old occurrence is removed and NOT clamped;
the child's actual position in the parent's list after the insertion
phase is that value clamped to the post-removal list length.  The two
agree exactly when the effective index does not exceed the post-removal
length — in particular they differ when the requested index exceeds the
list length and when an existing child is moved with no explicit index. -/
theorem relate_reports_raw_effective_index (h : Hierarchy M) (p c : M) (idx : Option Nat)
    (hInv : Inv h) (hpc : p ≠ c)
    (hcyc : ¬((mapGet h.childrenMap c).isSome = true ∧ p ∈ descList h.childrenMap c)) :
    (relate h [(p, c, idx)]).2 =
        [RelResult.rel p c (idx.getD (childrenOf h.childrenMap p).length)] ∧
      (childrenOf (relatePhase h [(p, c, idx)]).1.childrenMap p).findIdx
          (fun x => x = c) =
        min (idx.getD (childrenOf h.childrenMap p).length)
          (eraseFirst (childrenOf h.childrenMap p) c).length := by
  obtain ⟨⟨hKN, hLN, hLC, hNS⟩, hHM⟩ := hInv
  have hnd : (childrenOf h.childrenMap p).Nodup := by
    cases hg : mapGet h.childrenMap p with
    | none => simp [childrenOf, hg]
    | some l =>
      have := hLN (p, l) (mapGet_mem _ p l hg)
      simpa [childrenOf, hg] using this
  have hcne : c ∉ eraseFirst (childrenOf h.childrenMap p) c :=
    not_mem_eraseFirst_of_nodup _ c hnd
  have key : (createRelationship h p c idx).2 =
      RelResult.rel p c (idx.getD (childrenOf h.childrenMap p).length) ∧
      childrenOf (createRelationship h p c idx).1.childrenMap p =
        spliceInsert (eraseFirst (childrenOf h.childrenMap p) c)
          (idx.getD (childrenOf h.childrenMap p).length) c := by
    cases hpm : (mapGet h.childrenMap p).isSome with
    | true =>
      rw [createRelationship_success_member h p c idx hpc hcyc hpm]
      exact ⟨rfl, childrenOf_set_self _ _ _⟩
    | false =>
      have hnone : mapGet h.childrenMap p = none := by
        cases hg : mapGet h.childrenMap p with
        | none => rfl
        | some l => rw [hg] at hpm; simp at hpm
      rw [createRelationship_success_fresh h p c idx hpc hcyc hnone hHM hLC]
      exact ⟨rfl, childrenOf_set_self _ _ _⟩
  constructor
  · simp only [relate, relatePhase_single]
    rw [key.1]
  · simp only [relatePhase_single]
    rw [key.2]
    exact findIdx_spliceInsert _ _ c hcne

/-- Witness: on the family chain, relating the fresh child `3` under `1`
with requested index 5 returns childIndex 5, while the child actually
lands at position `min 5 1 = 1`. -/
theorem relate_reports_raw_effective_index_witness :
    Inv familyH ∧ (1 : Nat) ≠ 3 ∧
      ¬((mapGet familyH.childrenMap 3).isSome = true ∧
          1 ∈ descList familyH.childrenMap 3) ∧
      ((relate familyH [(1, 3, some 5)]).2 = [RelResult.rel 1 3 5] ∧
        (childrenOf (relatePhase familyH [(1, 3, some 5)]).1.childrenMap 1).findIdx
            (fun x => x = 3) =
          min 5 (eraseFirst (childrenOf familyH.childrenMap 1) 3).length) :=
  ⟨by decide, by decide, by decide,
    relate_reports_raw_effective_index familyH 1 3 (some 5) (by decide) (by decide)
      (by decide)⟩

/-- Witness for the missing-parent `unrelate` theorem: unrelating the
absent pair `(7, 2)` on the family chain adds `7` as a childless,
parentless member. -/
theorem unrelate_missing_parent_becomes_member_witness :
    Inv familyH ∧ (7 : Nat) ∉ members familyH ∧ (7 : Nat) ≠ 2 ∧
      (7 ∈ members (unrelate familyH 7 2) ∧
        children (unrelate familyH 7 2) 7 = some [] ∧
        parents (unrelate familyH 7 2) 7 = some []) :=
  ⟨by decide, by decide, by decide,
    unrelate_missing_parent_becomes_member familyH 7 2 (by decide) (by decide) (by decide)⟩

/-- Witness for the orphan-cascade theorem: unrelating `2` from its only
parent `1` removes `2` from the members. -/
theorem unrelate_only_parent_removes_member_witness :
    Inv familyH ∧ parents familyH 2 = some [1] ∧ (2 : Nat) ≠ familyH.hierarch ∧
      (2 ∉ members (unrelate familyH 1 2) ∧
        ∀ x ∈ (children familyH 2).getD [], x ∈ members (unrelate familyH 1 2)) :=
  ⟨by decide, by decide, by decide,
    unrelate_only_parent_removes_member familyH 1 2 (by decide) (by decide) (by decide)⟩

/-! ## Reachability theory: chains, fuel soundness and completeness -/

theorem reaches_trans (cm : CMap M) (a b c : M)
    (h1 : Reaches cm a b) (h2 : Reaches cm b c) : Reaches cm a c := by
  induction h1 with
  | single hstep => exact Reaches.cons hstep h2
  | cons hstep _ ih => exact Reaches.cons hstep (ih h2)

theorem reaches_mono (cm1 cm2 : CMap M)
    (hsub : ∀ x, ∀ y ∈ childrenOf cm1 x, y ∈ childrenOf cm2 x)
    (a b : M) (hr : Reaches cm1 a b) : Reaches cm2 a b := by
  induction hr with
  | single hstep => exact Reaches.single (hsub _ _ hstep)
  | cons hstep _ ih => exact Reaches.cons (hsub _ _ hstep) ih

theorem childrenOf_ne_nil_mem_keys (cm : CMap M) (x y : M)
    (hy : y ∈ childrenOf cm x) : x ∈ keys cm := by
  cases hg : mapGet cm x with
  | none => rw [childrenOf, hg] at hy; simp at hy
  | some l => exact (mapGet_isSome_iff cm x).1 (by simp [hg])

theorem reaches_start_mem_keys (cm : CMap M) (a b : M) (hr : Reaches cm a b) :
    a ∈ keys cm := by
  cases hr with
  | single hstep => exact childrenOf_ne_nil_mem_keys cm a b hstep
  | cons hstep _ => exact childrenOf_ne_nil_mem_keys cm a _ hstep

theorem descF_sound (cm : CMap M) (fuel : Nat) (a b : M)
    (hb : b ∈ descF fuel cm a) : Reaches cm a b := by
  induction fuel generalizing a with
  | zero => simp [descF] at hb
  | succ fuel ih =>
    rw [descF] at hb
    simp only [List.mem_append, List.mem_flatMap] at hb
    rcases hb with hb | ⟨c, hc, hb⟩
    · exact Reaches.single hb
    · exact Reaches.cons hc (ih c hb)

theorem descF_mono_fuel (cm : CMap M) (f : Nat) :
    ∀ (g : Nat), f ≤ g → ∀ (a b : M), b ∈ descF f cm a → b ∈ descF g cm a := by
  induction f with
  | zero => intro g hg a b hb; simp [descF] at hb
  | succ f ih =>
    intro g hg a b hb
    cases g with
    | zero => exact absurd hg (by simp)
    | succ g =>
      rw [descF] at hb ⊢
      simp only [List.mem_append, List.mem_flatMap] at hb ⊢
      rcases hb with hb | ⟨c, hc, hb⟩
      · exact Or.inl hb
      · exact Or.inr ⟨c, hc, ih g (Nat.le_of_succ_le_succ hg) c b hb⟩

theorem chainL_reaches (cm : CMap M) (a b : M) (l : List M)
    (hc : ChainL cm a l b) : Reaches cm a b := by
  induction l generalizing a with
  | nil => exact Reaches.single hc
  | cons x xs ih =>
    rw [ChainL] at hc
    exact Reaches.cons hc.1 (ih x hc.2)

theorem reaches_chainL (cm : CMap M) (a b : M) (hr : Reaches cm a b) :
    ∃ l, ChainL cm a l b := by
  induction hr with
  | single hstep => exact ⟨[], hstep⟩
  | cons hstep _ ih =>
    obtain ⟨l, hl⟩ := ih
    exact ⟨_ :: l, ⟨hstep, hl⟩⟩

theorem chainL_mem_descF (cm : CMap M) (a b : M) (l : List M)
    (hc : ChainL cm a l b) : b ∈ descF (l.length + 1) cm a := by
  induction l generalizing a with
  | nil =>
    rw [descF]
    simp only [List.mem_append]
    exact Or.inl hc
  | cons x xs ih =>
    rw [ChainL] at hc
    rw [descF]
    simp only [List.mem_append, List.mem_flatMap]
    exact Or.inr ⟨x, hc.1, ih x hc.2⟩

theorem chainL_split (cm : CMap M) (a b x : M) (l1 l2 : List M)
    (hc : ChainL cm a (l1 ++ x :: l2) b) : ChainL cm a l1 x ∧ ChainL cm x l2 b := by
  induction l1 generalizing a with
  | nil =>
    rw [List.nil_append, ChainL] at hc
    exact ⟨hc.1, hc.2⟩
  | cons y ys ih =>
    rw [List.cons_append, ChainL] at hc
    have := ih y hc.2
    exact ⟨⟨hc.1, this.1⟩, this.2⟩

theorem chainL_glue (cm : CMap M) (a b x : M) (l1 l2 : List M)
    (h1 : ChainL cm a l1 x) (h2 : ChainL cm x l2 b) :
    ChainL cm a (l1 ++ x :: l2) b := by
  induction l1 generalizing a with
  | nil => exact ⟨h1, h2⟩
  | cons y ys ih => exact ⟨h1.1, ih y h1.2⟩

theorem exists_dup_split (l : List M) (hnd : ¬ l.Nodup) :
    ∃ x l1 l2 l3, l = l1 ++ x :: (l2 ++ x :: l3) := by
  induction l with
  | nil => simp at hnd
  | cons y ys ih =>
    by_cases hy : y ∈ ys
    · obtain ⟨s, t, hst⟩ := List.append_of_mem hy
      exact ⟨y, [], s, t, by rw [hst]; simp⟩
    · have : ¬ ys.Nodup := fun hnd2 => hnd (List.nodup_cons.2 ⟨hy, hnd2⟩)
      obtain ⟨x, l1, l2, l3, hl⟩ := ih this
      exact ⟨x, y :: l1, l2, l3, by rw [hl]; simp⟩

theorem chainL_nodup (cm : CMap M) (a b : M) :
    ∀ (n : Nat) (l : List M), l.length ≤ n → ChainL cm a l b →
      ∃ l2, ChainL cm a l2 b ∧ l2.Nodup ∧ ∀ x ∈ l2, x ∈ l := by
  intro n
  induction n with
  | zero =>
    intro l hl hc
    have hnil : l = [] := List.length_eq_zero.1 (Nat.le_zero.1 hl)
    subst hnil
    exact ⟨[], hc, List.nodup_nil, by simp⟩
  | succ n ih =>
    intro l hl hc
    by_cases hnd : l.Nodup
    · exact ⟨l, hc, hnd, fun x hx => hx⟩
    · obtain ⟨x, l1, l2, l3, hsplit⟩ := exists_dup_split l hnd
      subst hsplit
      have hs1 := chainL_split cm a b x l1 (l2 ++ x :: l3) hc
      have hs2 := chainL_split cm x b x l2 l3 hs1.2
      have hglue := chainL_glue cm a b x l1 l3 hs1.1 hs2.2
      have hlen : (l1 ++ x :: l3).length ≤ n := by
        simp only [List.length_append, List.length_cons] at hl ⊢
        omega
      obtain ⟨l4, hl4, hnd4, hsub4⟩ := ih _ hlen hglue
      refine ⟨l4, hl4, hnd4, fun z hz => ?_⟩
      have := hsub4 z hz
      simp only [List.mem_append, List.mem_cons] at this ⊢
      tauto

theorem chainL_mem_keys (cm : CMap M) (a b : M) (l : List M)
    (hc : ChainL cm a l b) : ∀ x ∈ l, x ∈ keys cm := by
  induction l generalizing a with
  | nil => simp
  | cons y ys ih =>
    rw [ChainL] at hc
    intro x hx
    rcases List.mem_cons.1 hx with h | h
    · subst h
      cases ys with
      | nil => exact childrenOf_ne_nil_mem_keys cm x b hc.2
      | cons z zs => exact childrenOf_ne_nil_mem_keys cm x z hc.2.1
    · exact ih y hc.2 x h

theorem nodup_length_le_keys (cm : CMap M) (l : List M) (hnd : l.Nodup)
    (hsub : ∀ x ∈ l, x ∈ keys cm) : l.length ≤ cm.length := by
  have h1 : l.toFinset.card = l.length := List.toFinset_card_of_nodup hnd
  have h2 : l.toFinset ⊆ (keys cm).toFinset := by
    intro x hx
    rw [List.mem_toFinset] at hx ⊢
    exact hsub x hx
  have h3 : l.toFinset.card ≤ (keys cm).toFinset.card := Finset.card_le_card h2
  have h4 : (keys cm).toFinset.card ≤ (keys cm).length := List.toFinset_card_le _
  have h5 : (keys cm).length = cm.length := List.length_map _ _
  omega

theorem reaches_mem_descList (cm : CMap M) (a b : M) (hr : Reaches cm a b) :
    b ∈ descList cm a := by
  obtain ⟨l, hl⟩ := reaches_chainL cm a b hr
  obtain ⟨l2, hl2, hnd2, hsub2⟩ := chainL_nodup cm a b l.length l (le_refl _) hl
  have hkeys := chainL_mem_keys cm a b l2 hl2
  have hlen : l2.length ≤ cm.length := nodup_length_le_keys cm l2 hnd2 hkeys
  have := chainL_mem_descF cm a b l2 hl2
  exact descF_mono_fuel cm (l2.length + 1) (cm.length + 1) (by omega) a b this

/-- The key faithfulness bridge: membership in the embedded descendant
list is exactly reachability, on every map. -/
theorem mem_descList_iff_Reaches (cm : CMap M) (a b : M) :
    b ∈ descList cm a ↔ Reaches cm a b :=
  ⟨descF_sound cm (cm.length + 1) a b, reaches_mem_descList cm a b⟩

/-- First arrival: every chain can be shortened so that the target does
not occur among the intermediate nodes. -/
theorem chainL_first_arrival (cm : CMap M) (a b : M) :
    ∀ (n : Nat) (l : List M), l.length ≤ n → ChainL cm a l b →
      ∃ l2, ChainL cm a l2 b ∧ b ∉ l2 ∧ ∀ x ∈ l2, x ∈ l := by
  intro n
  induction n with
  | zero =>
    intro l hl hc
    have hnil : l = [] := List.length_eq_zero.1 (Nat.le_zero.1 hl)
    subst hnil
    exact ⟨[], hc, by simp, by simp⟩
  | succ n ih =>
    intro l hl hc
    by_cases hb : b ∈ l
    · obtain ⟨s, t, hst⟩ := List.append_of_mem hb
      subst hst
      have hs := chainL_split cm a b b s t hc
      have hlen : s.length ≤ n := by
        simp only [List.length_append, List.length_cons] at hl
        omega
      obtain ⟨l2, hl2, hb2, hsub2⟩ := ih s hlen hs.1
      refine ⟨l2, hl2, hb2, fun x hx => ?_⟩
      have := hsub2 x hx
      simp only [List.mem_append, List.mem_cons]
      tauto
    · exact ⟨l, hc, hb, fun x hx => hx⟩

/-- Monotonicity that ignores the target's own child list: if every node
other than `b` has its children preserved, reachability of `b` transfers.
(`a ≠ b` so that the first step is preserved too.) -/
theorem reaches_mono_except_target (cm1 cm2 : CMap M) (a b : M) (hab : a ≠ b)
    (hsub : ∀ x, x ≠ b → ∀ y ∈ childrenOf cm1 x, y ∈ childrenOf cm2 x)
    (hr : Reaches cm1 a b) : Reaches cm2 a b := by
  obtain ⟨l, hl⟩ := reaches_chainL cm1 a b hr
  obtain ⟨l2, hl2, hb2, hsub2⟩ := chainL_first_arrival cm1 a b l.length l (le_refl _) hl
  clear hsub2 hl hr
  apply chainL_reaches cm2 a b l2
  induction l2 generalizing a with
  | nil => exact hsub a hab b hl2
  | cons x xs ih =>
    rw [ChainL] at hl2 ⊢
    simp only [List.mem_cons] at hb2
    push_neg at hb2
    exact ⟨hsub a hab x hl2.1, ih x (fun he => hb2.1 he.symm) hl2.2 hb2.2⟩

/-! ## Acyclicity and heights -/

theorem acyclicL_iff (cm : CMap M) :
    AcyclicL cm ↔ ∀ m, ¬ Reaches cm m m := by
  constructor
  · intro hac m hr
    have hk := reaches_start_mem_keys cm m m hr
    exact hac m hk ((mem_descList_iff_Reaches cm m m).2 hr)
  · intro hac m _ hmem
    exact hac m ((mem_descList_iff_Reaches cm m m).1 hmem)

theorem descList_subset_of_reaches (cm : CMap M) (a b : M)
    (hr : Reaches cm a b) : ∀ z ∈ descList cm b, z ∈ descList cm a := by
  intro z hz
  exact (mem_descList_iff_Reaches cm a z).2
    (reaches_trans cm a b z hr ((mem_descList_iff_Reaches cm b z).1 hz))

theorem heightOf_lt_of_reaches (cm : CMap M) (hac : ∀ m, ¬ Reaches cm m m)
    (a b : M) (hr : Reaches cm a b) : heightOf cm b < heightOf cm a := by
  apply Finset.card_lt_card
  rw [Finset.ssubset_iff_of_subset]
  · refine ⟨b, ?_, ?_⟩
    · rw [List.mem_toFinset]
      exact (mem_descList_iff_Reaches cm a b).2 hr
    · rw [List.mem_toFinset]
      intro hmem
      exact hac b ((mem_descList_iff_Reaches cm b b).1 hmem)
  · intro z hz
    rw [List.mem_toFinset] at hz ⊢
    exact descList_subset_of_reaches cm a b hr z hz

/-! ## Entry-level helpers -/

theorem mem_mapSet (cm : CMap M) (k : M) (v : List M) (e : M × List M)
    (he : e ∈ mapSet cm k v) : e ∈ cm ∨ e = (k, v) := by
  induction cm with
  | nil => simpa [mapSet] using he
  | cons f rest ih =>
    by_cases hf : f.1 = k
    · rw [mapSet.eq_def] at he
      simp only [hf, if_pos] at he
      rcases List.mem_cons.1 he with h | h
      · exact Or.inr h
      · exact Or.inl (List.mem_cons_of_mem _ h)
    · rw [mapSet.eq_def] at he
      simp only [hf, if_false] at he
      rcases List.mem_cons.1 he with h | h
      · left
        rw [h]
        simp
      · rcases ih h with h2 | h2
        · exact Or.inl (List.mem_cons_of_mem _ h2)
        · exact Or.inr h2

theorem mem_mapDelete (cm : CMap M) (k : M) (e : M × List M)
    (he : e ∈ mapDelete cm k) : e ∈ cm :=
  List.mem_of_mem_filter he

theorem noSelf_childrenOf (cm : CMap M) (hNS : NoSelf cm) (p : M) :
    p ∉ childrenOf cm p := by
  cases hg : mapGet cm p with
  | none => simp [childrenOf, hg]
  | some l =>
    have := hNS (p, l) (mapGet_mem cm p l hg)
    simpa [childrenOf, hg] using this

theorem nodup_childrenOf (cm : CMap M) (hLN : ListsNodup cm) (p : M) :
    (childrenOf cm p).Nodup := by
  cases hg : mapGet cm p with
  | none => simp [childrenOf, hg]
  | some l =>
    have := hLN (p, l) (mapGet_mem cm p l hg)
    simpa [childrenOf, hg] using this

theorem mem_eraseFirst_of_ne (l : List M) (m x : M) (hx : x ∈ l) (hne : x ≠ m) :
    x ∈ eraseFirst l m := by
  induction l with
  | nil => simpa using hx
  | cons y ys ih =>
    by_cases hy : y = m
    · rw [eraseFirst, if_pos hy]
      rcases List.mem_cons.1 hx with h | h
      · exact absurd (h.trans hy) hne
      · exact h
    · rw [eraseFirst, if_neg hy]
      rcases List.mem_cons.1 hx with h | h
      · exact h ▸ List.mem_cons_self _ _
      · exact List.mem_cons_of_mem _ (ih h)

/-! ## The clone copies the children map pointwise -/

theorem clone_foldl_get (cm : CMap M) (ks : List M) (acc : CMap M) (x : M) :
    mapGet (ks.foldl (fun a k => mapSet a k (childrenOf cm k)) acc) x =
      if x ∈ ks then some (childrenOf cm x) else mapGet acc x := by
  induction ks generalizing acc with
  | nil => simp
  | cons k ks ih =>
    rw [List.foldl_cons, ih]
    by_cases hx : x ∈ ks
    · rw [if_pos hx, if_pos (List.mem_cons_of_mem _ hx)]
    · rw [if_neg hx]
      by_cases hxk : x = k
      · subst hxk
        rw [mapGet_set_self, if_pos (List.mem_cons_self _ _)]
      · rw [mapGet_set_ne acc k x _ (fun he => hxk he.symm),
          if_neg (by simp [hxk, hx])]

theorem childrenOf_cloneH (h : Hierarchy M) (x : M) :
    childrenOf (cloneH h).childrenMap x = childrenOf h.childrenMap x := by
  rw [cloneH]
  simp only
  rw [childrenOf, clone_foldl_get h.childrenMap (keys h.childrenMap) _ x]
  by_cases hx : x ∈ keys h.childrenMap
  · rw [if_pos hx]
    rfl
  · rw [if_neg hx, childrenOf_of_not_mem _ x hx]
    by_cases hxh : h.hierarch = x
    · simp [mapGet, hxh]
    · simp [mapGet, hxh]

/-! ## More `unrelate` shape lemmas -/

theorem childrenOf_unrelate_other (h : Hierarchy M) (p c x : M)
    (hxp : x ≠ p) (hxc : x ≠ c) :
    childrenOf (unrelate h p c).childrenMap x = childrenOf h.childrenMap x := by
  rw [unrelate_eq]
  simp only
  by_cases hdel : (mapGet (unrelStep h.childrenMap p c) c).isSome ∧
      (parentsOf (unrelStep h.childrenMap p c) c).isEmpty
  · rw [if_pos hdel, childrenOf_delete_ne _ c x (fun he => hxc he.symm),
      childrenOf_unrelStep, if_neg hxp]
  · rw [if_neg hdel, childrenOf_unrelStep, if_neg hxp]

theorem childrenOf_unrelate_parent (h : Hierarchy M) (p c : M) (hpc : p ≠ c) :
    childrenOf (unrelate h p c).childrenMap p =
      (childrenOf h.childrenMap p).filter (fun y => y ≠ c) := by
  rw [unrelate_eq]
  simp only
  by_cases hdel : (mapGet (unrelStep h.childrenMap p c) c).isSome ∧
      (parentsOf (unrelStep h.childrenMap p c) c).isEmpty
  · rw [if_pos hdel, childrenOf_delete_ne _ c p (fun he => hpc he.symm),
      childrenOf_unrelStep, if_pos rfl]
  · rw [if_neg hdel, childrenOf_unrelStep, if_pos rfl]

/-! ## `#hasDescendant` and `#isTransitiveRelationship` -/

theorem hasDescendant_iff (h : Hierarchy M) (p c : M) :
    hasDescendant h p c = true ↔
      (mapGet h.childrenMap p).isSome = true ∧ c ∈ descList h.childrenMap p := by
  by_cases hs : (mapGet h.childrenMap p).isSome = true
  · have hd : descendants h p = some (descList h.childrenMap p) := by
      rw [descendants, if_pos hs]
    simp [hasDescendant, hd, hs]
  · have hd : descendants h p = none := by
      rw [descendants, if_neg hs]
    simp [hasDescendant, hd, hs]

theorem isTransitiveRel_iff (h : Hierarchy M) (p c : M) :
    isTransitiveRel h p c = true ↔
      (mapGet (unrelate (cloneH h) p c).childrenMap p).isSome = true ∧
        Reaches (unrelate (cloneH h) p c).childrenMap p c := by
  rw [isTransitiveRel, hasDescendant_iff, mem_descList_iff_Reaches]

/-- Every relationship flagged by the reduction pass has an alternate
path from its parent to its child in the graph with just that edge
removed.  (No hypotheses: this is the soundness direction of the
`#isTransitiveRelationship` oracle.) -/
theorem isTransitiveRel_alt_path (h : Hierarchy M) (p c : M)
    (htr : isTransitiveRel h p c = true) :
    Reaches (eraseEdge h.childrenMap p c) p c := by
  obtain ⟨hmem, hr⟩ := (isTransitiveRel_iff h p c).1 htr
  apply reaches_mono _ _ _ p c hr
  intro x y hy
  have hsub := childrenOf_unrelate_subset (cloneH h) p c x y hy
  have hclone := childrenOf_cloneH h x
  by_cases hxp : x = p
  · subst hxp
    have hyne : y ≠ c := fun he => hsub.2 ⟨rfl, he⟩
    rw [eraseEdge, childrenOf_set_self]
    apply mem_eraseFirst_of_ne _ _ _ _ hyne
    rw [← hclone]
    exact hsub.1
  · rw [eraseEdge, childrenOf_set_ne _ p x _ (fun he => hxp he.symm), ← hclone]
    exact hsub.1

/-! ## The reduction fold -/

theorem foldl_unrelate_childrenOf_subset (rs : List (M × M × Nat)) (h : Hierarchy M)
    (x y : M)
    (hy : y ∈ childrenOf (rs.foldl (fun st r => unrelate st r.1 r.2.1) h).childrenMap x) :
    y ∈ childrenOf h.childrenMap x := by
  induction rs generalizing h with
  | nil => exact hy
  | cons r rest ih =>
    rw [List.foldl_cons] at hy
    exact (childrenOf_unrelate_subset h r.1 r.2.1 x y (ih (unrelate h r.1 r.2.1) hy)).1

theorem foldl_unrelate_hierarch (rs : List (M × M × Nat)) (h : Hierarchy M) :
    (rs.foldl (fun st r => unrelate st r.1 r.2.1) h).hierarch = h.hierarch := by
  induction rs generalizing h with
  | nil => rfl
  | cons r rest ih =>
    rw [List.foldl_cons, ih]
    rfl

theorem foldl_unrelate_removes (rs : List (M × M × Nat)) (h : Hierarchy M)
    (p c : M) (i : Nat) (hmem : (p, c, i) ∈ rs) :
    c ∉ childrenOf (rs.foldl (fun st r => unrelate st r.1 r.2.1) h).childrenMap p := by
  induction rs generalizing h with
  | nil => simp at hmem
  | cons r rest ih =>
    rw [List.foldl_cons]
    rcases List.mem_cons.1 hmem with he | hmem2
    · subst he
      intro hc
      have h2 := foldl_unrelate_childrenOf_subset rest _ p c hc
      have h3 := childrenOf_unrelate_subset h p c p c h2
      exact h3.2 ⟨rfl, rfl⟩
    · exact ih _ hmem2

theorem edge_mem_relationships (h : Hierarchy M) (p c : M)
    (hc : c ∈ childrenOf h.childrenMap p) : ∃ i, (p, c, i) ∈ relationships h := by
  cases hg : mapGet h.childrenMap p with
  | none =>
    rw [childrenOf, hg] at hc
    simp at hc
  | some l =>
    rw [childrenOf, hg] at hc
    simp only [Option.getD_some] at hc
    obtain ⟨i, hi, hgetl⟩ := List.mem_iff_getElem.1 hc
    refine ⟨i, ?_⟩
    rw [relationships]
    apply List.mem_flatMap.2
    refine ⟨(p, l), mapGet_mem h.childrenMap p l hg, ?_⟩
    simp only [List.mem_map]
    refine ⟨(i, c), ?_, rfl⟩
    rw [List.mk_mem_enum_iff_getElem?]
    rw [List.getElem?_eq_getElem hi, hgetl]

theorem reduceOp_edge_not_flagged (h : Hierarchy M) (p c : M)
    (hc : c ∈ childrenOf (reduceOp h).childrenMap p) :
    isTransitiveRel h p c = false := by
  cases he : isTransitiveRel h p c
  · rfl
  · exfalso
    have hcG : c ∈ childrenOf h.childrenMap p :=
      foldl_unrelate_childrenOf_subset _ h p c hc
    obtain ⟨i, hrel⟩ := edge_mem_relationships h p c hcG
    have hflag : (p, c, i) ∈ flaggedRels h := by
      rw [flaggedRels]
      exact List.mem_filter.2 ⟨hrel, by simpa using he⟩
    exact foldl_unrelate_removes (flaggedRels h) h p c i hflag hc

/-! ## Well-formedness preservation by `unrelate` and its fold -/

theorem listsNodup_unrelate (h : Hierarchy M) (p c : M)
    (hLN : ListsNodup h.childrenMap) : ListsNodup (unrelate h p c).childrenMap := by
  intro e he
  rw [unrelate_eq] at he
  simp only at he
  have hstep : e ∈ unrelStep h.childrenMap p c → (Prod.snd e).Nodup := by
    intro hmem
    rcases mem_mapSet _ _ _ e hmem with hold | hnew
    · exact hLN e hold
    · rw [hnew]
      exact List.Nodup.filter _ (nodup_childrenOf _ hLN p)
  by_cases hdel : (mapGet (unrelStep h.childrenMap p c) c).isSome ∧
      (parentsOf (unrelStep h.childrenMap p c) c).isEmpty
  · rw [if_pos hdel] at he
    exact hstep (mem_mapDelete _ c e he)
  · rw [if_neg hdel] at he
    exact hstep he

theorem noSelf_unrelate (h : Hierarchy M) (p c : M)
    (hNS : NoSelf h.childrenMap) : NoSelf (unrelate h p c).childrenMap := by
  intro e he
  rw [unrelate_eq] at he
  simp only at he
  have hstep : e ∈ unrelStep h.childrenMap p c → Prod.fst e ∉ Prod.snd e := by
    intro hmem
    rcases mem_mapSet _ _ _ e hmem with hold | hnew
    · exact hNS e hold
    · rw [hnew]
      intro hmem2
      have := List.mem_filter.1 hmem2
      exact noSelf_childrenOf _ hNS p this.1
  by_cases hdel : (mapGet (unrelStep h.childrenMap p c) c).isSome ∧
      (parentsOf (unrelStep h.childrenMap p c) c).isEmpty
  · rw [if_pos hdel] at he
    exact hstep (mem_mapDelete _ c e he)
  · rw [if_neg hdel] at he
    exact hstep he

theorem listsNodup_foldl_unrelate (rs : List (M × M × Nat)) (h : Hierarchy M)
    (hLN : ListsNodup h.childrenMap) :
    ListsNodup (rs.foldl (fun st r => unrelate st r.1 r.2.1) h).childrenMap := by
  induction rs generalizing h with
  | nil => exact hLN
  | cons r rest ih =>
    rw [List.foldl_cons]
    exact ih _ (listsNodup_unrelate h r.1 r.2.1 hLN)

theorem noSelf_foldl_unrelate (rs : List (M × M × Nat)) (h : Hierarchy M)
    (hNS : NoSelf h.childrenMap) :
    NoSelf (rs.foldl (fun st r => unrelate st r.1 r.2.1) h).childrenMap := by
  induction rs generalizing h with
  | nil => exact hNS
  | cons r rest ih =>
    rw [List.foldl_cons]
    exact ih _ (noSelf_unrelate h r.1 r.2.1 hNS)

/-- The central reduction theorem: every edge still stored after
`#reduce` is non-redundant — its child is unreachable from its parent
once that single edge is removed. -/
theorem reduceOp_not_redundant (h : Hierarchy M)
    (hLN : ListsNodup h.childrenMap) (hNS : NoSelf h.childrenMap)
    (p c : M) (hc : c ∈ childrenOf (reduceOp h).childrenMap p) :
    ¬ Reaches (eraseEdge (reduceOp h).childrenMap p c) p c := by
  intro hr
  have hLN2 : ListsNodup (reduceOp h).childrenMap := listsNodup_foldl_unrelate _ h hLN
  have hNS2 : NoSelf (reduceOp h).childrenMap := noSelf_foldl_unrelate _ h hNS
  have hflag : isTransitiveRel h p c = false := reduceOp_edge_not_flagged h p c hc
  have hpc : p ≠ c := by
    intro he
    subst he
    exact noSelf_childrenOf _ hNS2 p hc
  -- transfer the alternate path into the oracle graph
  have hU : Reaches (unrelate (cloneH h) p c).childrenMap p c := by
    apply reaches_mono_except_target (eraseEdge (reduceOp h).childrenMap p c) _ p c hpc _ hr
    intro x hxc y hy
    by_cases hxp : x = p
    · rw [hxp] at hy ⊢
      rw [eraseEdge, childrenOf_set_self] at hy
      have hyc : y ≠ c := by
        intro he
        subst he
        exact not_mem_eraseFirst_of_nodup _ y (nodup_childrenOf _ hLN2 p) hy
      have hyr : y ∈ childrenOf (reduceOp h).childrenMap p := mem_eraseFirst_imp _ c y hy
      have hyG : y ∈ childrenOf h.childrenMap p :=
        foldl_unrelate_childrenOf_subset _ h p y hyr
      rw [childrenOf_unrelate_parent (cloneH h) p c hpc, childrenOf_cloneH]
      exact List.mem_filter.2 ⟨hyG, by simpa using hyc⟩
    · rw [eraseEdge, childrenOf_set_ne _ p x _ (fun he => hxp he.symm)] at hy
      have hyG : y ∈ childrenOf h.childrenMap x :=
        foldl_unrelate_childrenOf_subset _ h x y hy
      rw [childrenOf_unrelate_other (cloneH h) p c x hxp hxc, childrenOf_cloneH]
      exact hyG
  have : isTransitiveRel h p c = true := by
    rw [isTransitiveRel_iff]
    refine ⟨(mapGet_isSome_iff _ p).2 ?_, hU⟩
    exact reaches_start_mem_keys _ p c hU
  rw [this] at hflag
  exact Bool.noConfusion hflag

/-! ## Well-formedness preservation by the insertion phase -/

theorem addMember_childrenOf (h : Hierarchy M) (c x : M) :
    childrenOf (addMember h c).childrenMap x = childrenOf h.childrenMap x := by
  by_cases hx : x = c
  · subst hx
    exact childrenOf_set_self _ _ _
  · exact childrenOf_set_ne _ c x _ (fun he => hx he.symm)

theorem addMember_keys (h : Hierarchy M) (c x : M) :
    x ∈ keys (addMember h c).childrenMap ↔ x ∈ keys h.childrenMap ∨ x = c :=
  mem_keys_set _ c x _

theorem inv_addMember (h : Hierarchy M) (c : M) (hInv : Inv h) : Inv (addMember h c) := by
  obtain ⟨⟨hKN, hLN, hLC, hNS⟩, hHM⟩ := hInv
  refine ⟨⟨?_, ?_, ?_, ?_⟩, ?_⟩
  · by_cases hc : c ∈ keys h.childrenMap
    · rw [KeysNodup, addMember, keys_set_mem _ c _ hc]
      exact hKN
    · rw [KeysNodup, addMember, keys_set_not_mem _ c _ hc]
      simp [List.nodup_append, hc]
      exact hKN
  · intro e he
    rcases mem_mapSet _ _ _ e he with hold | hnew
    · exact hLN e hold
    · rw [hnew]
      exact nodup_childrenOf _ hLN c
  · intro e he x hx
    rw [addMember_keys]
    rcases mem_mapSet _ _ _ e he with hold | hnew
    · exact Or.inl (hLC e hold x hx)
    · rw [hnew] at hx
      exact Or.inl (childrenOf_subset_keys _ hLC c x hx)
  · intro e he
    rcases mem_mapSet _ _ _ e he with hold | hnew
    · exact hNS e hold
    · rw [hnew]
      exact noSelf_childrenOf _ hNS c
  · rw [addMember_keys]
    exact Or.inl hHM

theorem inv_positionWrite (h : Hierarchy M) (p c : M) (eff : Nat) (hInv : Inv h)
    (hpc : p ≠ c) (hck : c ∈ keys h.childrenMap) :
    Inv ⟨h.hierarch, mapSet h.childrenMap p
        (spliceInsert (eraseFirst (childrenOf h.childrenMap p) c) eff c)⟩ := by
  obtain ⟨⟨hKN, hLN, hLC, hNS⟩, hHM⟩ := hInv
  have hmemL : ∀ y, y ∈ spliceInsert (eraseFirst (childrenOf h.childrenMap p) c) eff c →
      y = c ∨ y ∈ childrenOf h.childrenMap p := by
    intro y hy
    rcases (mem_spliceInsert _ eff c y).1 hy with hyc | hy2
    · exact Or.inl hyc
    · exact Or.inr (mem_eraseFirst_imp _ c y hy2)
  refine ⟨⟨?_, ?_, ?_, ?_⟩, ?_⟩
  · by_cases hpk : p ∈ keys h.childrenMap
    · rw [KeysNodup, keys_set_mem _ p _ hpk]
      exact hKN
    · rw [KeysNodup, keys_set_not_mem _ p _ hpk]
      simp [List.nodup_append, hpk]
      exact hKN
  · intro e he
    rcases mem_mapSet _ _ _ e he with hold | hnew
    · exact hLN e hold
    · rw [hnew]
      apply nodup_spliceInsert
      · exact nodup_eraseFirst _ c (nodup_childrenOf _ hLN p)
      · exact not_mem_eraseFirst_of_nodup _ c (nodup_childrenOf _ hLN p)
  · intro e he x hx
    rw [mem_keys_set]
    rcases mem_mapSet _ _ _ e he with hold | hnew
    · exact Or.inl (hLC e hold x hx)
    · rw [hnew] at hx
      rcases hmemL x hx with hxc | hxm
      · subst hxc
        exact Or.inl hck
      · exact Or.inl (childrenOf_subset_keys _ hLC p x hxm)
  · intro e he
    rcases mem_mapSet _ _ _ e he with hold | hnew
    · exact hNS e hold
    · rw [hnew]
      intro hmem
      rcases hmemL p hmem with hc2 | hm2
      · exact hpc hc2
      · exact noSelf_childrenOf _ hNS p hm2
  · rw [mem_keys_set]
    exact Or.inl hHM

theorem inv_createRelationship (h : Hierarchy M) (p c : M) (idx : Option Nat)
    (hInv : Inv h) : Inv (createRelationship h p c idx).1 := by
  by_cases hpc : p = c
  · subst hpc
    rw [createRelationship_loop]
    exact hInv
  · by_cases hcyc : (mapGet h.childrenMap c).isSome = true ∧ p ∈ descList h.childrenMap c
    · rw [createRelationship_cycle h p c idx hpc hcyc]
      exact hInv
    · by_cases hpm : (mapGet h.childrenMap p).isSome = true
      · rw [createRelationship_success_member h p c idx hpc hcyc hpm]
        have h2 := inv_addMember h c hInv
        have h3 := inv_positionWrite (addMember h c) p c
          (idx.getD (childrenOf h.childrenMap p).length) h2 hpc
          ((addMember_keys h c c).2 (Or.inr rfl))
        rw [addMember_childrenOf h c p] at h3
        exact h3
      · have hnone : mapGet h.childrenMap p = none := by
          cases hg : mapGet h.childrenMap p with
          | none => rfl
          | some l => rw [hg] at hpm; simp at hpm
        have hHM := hInv.2
        have hLC := hInv.1.2.2.1
        rw [createRelationship_success_fresh h p c idx hpc hcyc hnone hHM hLC]
        have hpk : p ∉ keys h.childrenMap := by
          intro hm
          have := (mapGet_isSome_iff h.childrenMap p).2 hm
          rw [hnone] at this
          simp at this
        have hpH : p ≠ h.hierarch := fun he => hpk (he ▸ hHM)
        -- step 1: the fresh parent entry
        have hstep1 : Inv ⟨h.hierarch, mapSet h.childrenMap p []⟩ := by
          have := inv_addMember h p hInv
          rw [addMember, childrenOf_of_not_mem _ p hpk] at this
          exact this
        -- step 2: append the parent to the hierarch child list
        have heq2 : childrenOf (mapSet h.childrenMap p []) h.hierarch =
            childrenOf h.childrenMap h.hierarch :=
          childrenOf_set_ne _ p h.hierarch [] hpH
        have hnotin : p ∉ childrenOf (mapSet h.childrenMap p []) h.hierarch := by
          rw [heq2]
          exact fun hmem => hpk (childrenOf_subset_keys _ hLC h.hierarch p hmem)
        have hstep2 : Inv ⟨h.hierarch, mapSet (mapSet h.childrenMap p []) h.hierarch
            (childrenOf h.childrenMap h.hierarch ++ [p])⟩ := by
          have h4 := inv_positionWrite ⟨h.hierarch, mapSet h.childrenMap p []⟩ h.hierarch p
            (childrenOf (mapSet h.childrenMap p []) h.hierarch).length hstep1
            (fun he => hpH he.symm)
            ((mem_keys_set h.childrenMap p p []).2 (Or.inr rfl))
          rw [eraseFirst_of_not_mem _ p hnotin, spliceInsert_of_ge _ _ p (le_refl _),
            heq2] at h4
          exact h4
        -- step 3: register the child, then write the positioned list
        have h5 := inv_addMember _ c hstep2
        have h6 := inv_positionWrite _ p c
          (idx.getD (childrenOf h.childrenMap p).length) h5 hpc
          ((addMember_keys _ c c).2 (Or.inr rfl))
        have heq3 : childrenOf (addMember ⟨h.hierarch, mapSet (mapSet h.childrenMap p [])
            h.hierarch (childrenOf h.childrenMap h.hierarch ++ [p])⟩ c).childrenMap p =
            childrenOf h.childrenMap p := by
          rw [addMember_childrenOf]
          simp only
          rw [childrenOf_set_ne _ h.hierarch p _ (fun he => hpH he.symm),
            childrenOf_set_self, childrenOf_of_not_mem _ p hpk]
        rw [heq3] at h6
        exact h6

theorem inv_relatePhase (h : Hierarchy M) (args : List (M × M × Option Nat))
    (hInv : Inv h) : Inv (relatePhase h args).1 := by
  suffices hgen : ∀ (st : Hierarchy M × List (RelResult M)), Inv st.1 →
      Inv (args.foldl (fun st a =>
        let r := createRelationship st.1 a.1 a.2.1 a.2.2
        (r.1, st.2 ++ [r.2])) st).1 by
    exact hgen (h, []) hInv
  induction args with
  | nil => intro st hst; exact hst
  | cons a rest ih =>
    intro st hst
    rw [List.foldl_cons]
    exact ih _ (inv_createRelationship st.1 a.1 a.2.1 a.2.2 hst)

/-! ## The reduction pass on acyclic states: no member is ever deleted
and the surviving edges are exactly the unflagged ones -/

theorem relationships_pairs_nodup (h : Hierarchy M)
    (hKN : KeysNodup h.childrenMap) (hLN : ListsNodup h.childrenMap) :
    ((relationships h).map (fun t => (t.1, t.2.1))).Nodup := by
  rw [relationships, List.map_flatMap]
  rw [List.nodup_flatMap]
  constructor
  · intro e he
    rw [List.map_map]
    have hfe : ((fun t => ((t.1, t.2.1) : M × M)) ∘ (fun ic : Nat × M => (e.1, ic.2, ic.1)))
        = (fun x : M => (e.1, x)) ∘ Prod.snd := by
      funext ic
      rfl
    rw [hfe, ← List.map_map, List.enum_map_snd]
    exact List.Nodup.map (fun x y hxy => by simpa using hxy) (hLN e he)
  · have hpw : h.childrenMap.Pairwise (fun e f => e.1 ≠ f.1) := by
      have h0 : (List.map Prod.fst h.childrenMap).Pairwise (fun a b => a ≠ b) := hKN
      exact List.pairwise_map.1 h0
    apply List.Pairwise.imp _ hpw
    intro e f hef
    simp only [Function.onFun]
    rw [List.disjoint_left]
    intro t ht ht2
    simp only [List.map_map, List.mem_map] at ht ht2
    obtain ⟨ic, _, hic⟩ := ht
    obtain ⟨jc, _, hjc⟩ := ht2
    apply hef
    have h1 : t.1 = e.1 := by rw [← hic]; rfl
    have h2 : t.1 = f.1 := by rw [← hjc]; rfl
    rw [← h1, h2]

/-- In an acyclic state every member with an in-edge keeps at least one
unflagged in-edge: the one from an in-neighbour of minimal height.
This is what protects the orphan check during `#reduce`. -/
theorem exists_unflagged_in_edge (G : Hierarchy M)
    (hac : ∀ m, ¬ Reaches G.childrenMap m m) (c q0 : M)
    (hq0 : c ∈ childrenOf G.childrenMap q0) :
    ∃ q, c ∈ childrenOf G.childrenMap q ∧ isTransitiveRel G q c = false := by
  set cm := G.childrenMap with hcm
  set inn := (keys cm).filter (fun q => c ∈ childrenOf cm q) with hinn
  have hq0k : q0 ∈ keys cm := childrenOf_ne_nil_mem_keys cm q0 c hq0
  have hq0i : q0 ∈ inn := by
    rw [hinn]
    exact List.mem_filter.2 ⟨hq0k, by simpa using hq0⟩
  have hne : inn.toFinset.Nonempty := ⟨q0, List.mem_toFinset.2 hq0i⟩
  obtain ⟨q, hq, hmin⟩ := Finset.exists_min_image inn.toFinset (heightOf cm) hne
  rw [List.mem_toFinset, hinn, List.mem_filter] at hq
  have hqc : c ∈ childrenOf cm q := by simpa using hq.2
  refine ⟨q, hqc, ?_⟩
  cases hflag : isTransitiveRel G q c
  · rfl
  · exfalso
    -- a flagged in-edge yields a strictly lower in-neighbour
    have halt : Reaches (unrelate (cloneH G) q c).childrenMap q c := by
      obtain ⟨_, hr⟩ := (isTransitiveRel_iff G q c).1 hflag
      exact hr
    set U := (unrelate (cloneH G) q c).childrenMap with hU
    have hUsub : ∀ x y, y ∈ childrenOf U x → y ∈ childrenOf cm x := by
      intro x y hy
      have := (childrenOf_unrelate_subset (cloneH G) q c x y hy).1
      rw [childrenOf_cloneH] at this
      exact this
    obtain ⟨l, hl⟩ := reaches_chainL U q c halt
    -- split off the last intermediate node
    rcases List.eq_nil_or_concat' l with hnil | ⟨l2, x, hcat⟩
    · subst hnil
      have : c ∈ childrenOf U q := hl
      rw [hU, childrenOf_unrelate_parent (cloneH G) q c
        (fun he => hac c (Reaches.single (he ▸ hqc)))] at this
      have := List.mem_filter.1 this
      simp at this
    · subst hcat
      have hsp := chainL_split U q c x l2 [] hl
      have hxc : c ∈ childrenOf U x := hsp.2
      have hxcG : c ∈ childrenOf cm x := hUsub x c hxc
      have hqx : Reaches cm q x := by
        apply reaches_mono U cm hUsub
        exact chainL_reaches U q x l2 hsp.1
      have hxq : x ≠ q := by
        intro he
        exact hac q (he ▸ hqx)
      have hxk : x ∈ keys cm := childrenOf_ne_nil_mem_keys cm x c hxcG
      have hxi : x ∈ inn.toFinset := by
        rw [List.mem_toFinset, hinn]
        exact List.mem_filter.2 ⟨hxk, by simpa using hxcG⟩
      have hlt := heightOf_lt_of_reaches cm hac q x hqx
      have hge := hmin x hxi
      omega

/-- Whether a pair occurs among the (parent, child) projections of a
triple list. -/
theorem anyIn_spec (rs : List (M × M × Nat)) (x y : M) :
    (rs.any (fun r => r.1 = x ∧ r.2.1 = y)) = true ↔ ∃ i, (x, y, i) ∈ rs := by
  rw [List.any_eq_true]
  constructor
  · rintro ⟨r, hr, hp⟩
    simp only [decide_eq_true_eq] at hp
    refine ⟨r.2.2, ?_⟩
    have : r = (x, y, r.2.2) := by
      obtain ⟨a, b, i⟩ := r
      simp only at hp
      simp [hp.1, hp.2]
    rw [← this]
    exact hr
  · rintro ⟨i, hi⟩
    exact ⟨(x, y, i), hi, by simp⟩

theorem reduceOp_fold_characterization (G : Hierarchy M)
    (hac : ∀ m, ¬ Reaches G.childrenMap m m) :
    ∀ (rs : List (M × M × Nat))
      (_ : ∀ r ∈ rs, r.2.1 ∈ childrenOf G.childrenMap r.1 ∧
        isTransitiveRel G r.1 r.2.1 = true)
      (_ : (rs.map (fun t => (t.1, t.2.1))).Nodup)
      (st : Hierarchy M)
      (_ : ∀ x, childrenOf st.childrenMap x = (childrenOf G.childrenMap x).filter
        (fun y => !(isTransitiveRel G x y) || rs.any (fun r => r.1 = x ∧ r.2.1 = y)))
      (_ : keys st.childrenMap = keys G.childrenMap),
      (∀ x, childrenOf (rs.foldl (fun s r => unrelate s r.1 r.2.1) st).childrenMap x =
          (childrenOf G.childrenMap x).filter (fun y => !(isTransitiveRel G x y))) ∧
        keys (rs.foldl (fun s r => unrelate s r.1 r.2.1) st).childrenMap =
          keys G.childrenMap := by
  intro rs
  induction rs with
  | nil =>
    intro _ _ st hch hk
    refine ⟨fun x => ?_, hk⟩
    rw [List.foldl_nil, hch x]
    simp
  | cons r rest ih =>
    intro hrs hnd st hch hk
    obtain ⟨p, c, i⟩ := r
    have hedge := (hrs (p, c, i) (List.mem_cons_self _ _)).1
    have hflag := (hrs (p, c, i) (List.mem_cons_self _ _)).2
    simp only at hedge hflag
    have hpc : p ≠ c := by
      intro he
      exact hac c (Reaches.single (he ▸ hedge))
    have hpk : p ∈ keys G.childrenMap := childrenOf_ne_nil_mem_keys _ p c hedge
    -- the orphan check cannot fire: a minimal-height unflagged in-edge of c
    -- survives in the filtered state
    obtain ⟨q, hqc, hqflag⟩ := exists_unflagged_in_edge G hac c p hedge
    have hqp : q ≠ p := by
      intro he
      rw [he, hflag] at hqflag
      exact Bool.noConfusion hqflag
    have hqk : q ∈ keys G.childrenMap := childrenOf_ne_nil_mem_keys _ q c hqc
    -- children of the intermediate (filtered) map
    have hstep : ∀ x, childrenOf (unrelStep st.childrenMap p c) x =
        (childrenOf G.childrenMap x).filter
          (fun y => !(isTransitiveRel G x y) ||
            rest.any (fun r => r.1 = x ∧ r.2.1 = y)) := by
      intro x
      rw [childrenOf_unrelStep]
      by_cases hxp : x = p
      · subst hxp
        rw [if_pos rfl, hch x, List.filter_filter]
        apply List.filter_congr
        intro y hy
        rw [Bool.eq_iff_iff]
        simp only [Bool.and_eq_true, decide_eq_true_eq, Bool.or_eq_true,
          Bool.not_eq_eq_eq_not, Bool.not_true, List.any_eq_true]
        by_cases hyc : y = c
        · subst hyc
          constructor
          · rintro ⟨hne, _⟩
            exact absurd rfl hne
          · rintro (hf | ⟨r2, hr2, hp2⟩)
            · rw [hflag] at hf
              exact Bool.noConfusion hf
            · exfalso
              have hnd2 := List.nodup_cons.1 hnd
              apply hnd2.1
              simp only [List.mem_map]
              exact ⟨r2, hr2, by simp [← hp2.1, ← hp2.2]⟩
        · constructor
          · rintro ⟨_, hor⟩
            rcases hor with hf | ⟨r2, hr2, hp2⟩
            · exact Or.inl hf
            · rcases List.mem_cons.1 hr2 with he2 | he2
              · exfalso
                rw [he2] at hp2
                simp only at hp2
                exact hyc hp2.2.symm
              · exact Or.inr ⟨r2, he2, hp2⟩
          · rintro (hf | ⟨r2, hr2, hp2⟩)
            · exact ⟨by simpa using hyc, Or.inl hf⟩
            · exact ⟨by simpa using hyc, Or.inr ⟨r2, List.mem_cons_of_mem _ hr2, hp2⟩⟩
      · rw [if_neg hxp, hch x]
        apply List.filter_congr
        intro y hy
        rw [Bool.eq_iff_iff]
        simp only [Bool.or_eq_true, List.any_eq_true, decide_eq_true_eq]
        constructor
        · rintro (hf | ⟨r2, hr2, hp2⟩)
          · exact Or.inl hf
          · rcases List.mem_cons.1 hr2 with he2 | he2
            · exfalso
              rw [he2] at hp2
              exact hxp hp2.1.symm
            · exact Or.inr ⟨r2, he2, hp2⟩
        · rintro (hf | ⟨r2, hr2, hp2⟩)
          · exact Or.inl hf
          · exact Or.inr ⟨r2, List.mem_cons_of_mem _ hr2, hp2⟩
    -- keys of the intermediate map
    have hkeys1 : keys (unrelStep st.childrenMap p c) = keys G.childrenMap := by
      rw [unrelStep, keys_set_mem _ p _ (by rw [hk]; exact hpk), hk]
    -- the orphan check is false: c still has parent q
    have hcq : c ∈ childrenOf (unrelStep st.childrenMap p c) q := by
      rw [hstep q]
      apply List.mem_filter.2
      refine ⟨hqc, ?_⟩
      simp [hqflag]
    have hnodel : ¬ ((mapGet (unrelStep st.childrenMap p c) c).isSome = true ∧
        (parentsOf (unrelStep st.childrenMap p c) c).isEmpty = true) := by
      rintro ⟨_, hemp⟩
      have : q ∈ parentsOf (unrelStep st.childrenMap p c) c := by
        apply (mem_parentsOf _ c q).2
        refine ⟨?_, hcq⟩
        rw [hkeys1]
        exact hqk
      rw [List.isEmpty_iff] at hemp
      rw [hemp] at this
      simp at this
    have hunrel : unrelate st p c = ⟨st.hierarch, unrelStep st.childrenMap p c⟩ := by
      rw [unrelate_eq, if_neg (by exact_mod_cast hnodel)]
    rw [List.foldl_cons]
    have happ := ih (fun r2 hr2 => hrs r2 (List.mem_cons_of_mem _ hr2))
      ((List.nodup_cons.1 hnd).2) (unrelate st p c)
      (by rw [hunrel]; exact hstep) (by rw [hunrel]; exact hkeys1)
    exact happ

/-- With no duplicate keys, each stored entry is what `mapGet` finds. -/
theorem mapGet_of_mem_nodup (cm : CMap M) (hKN : KeysNodup cm)
    (e : M × List M) (he : e ∈ cm) : mapGet cm e.1 = some e.2 := by
  induction cm with
  | nil => simp at he
  | cons f rest ih =>
    have hnd := hKN
    rw [KeysNodup, keys, List.map_cons, List.nodup_cons] at hnd
    rcases List.mem_cons.1 he with he2 | he2
    · rw [he2, mapGet.eq_def]
      simp
    · have hne : f.1 ≠ e.1 := by
        intro hfe
        exact hnd.1 (hfe ▸ List.mem_map_of_mem Prod.fst he2)
      rw [mapGet.eq_def]
      simp only [hne, if_false]
      exact ih hnd.2 he2

theorem mem_of_mem_enum (l : List M) (ic : Nat × M) (hic : ic ∈ l.enum) :
    ic.2 ∈ l := by
  have h1 := List.mem_enum_iff_getElem?.1 hic
  obtain ⟨hlt, hget⟩ := List.getElem?_eq_some.1 h1
  rw [← hget]
  exact List.getElem_mem _

/-- With no duplicate keys, every stored relationship is a stored edge. -/
theorem relationships_edge (h : Hierarchy M) (hKN : KeysNodup h.childrenMap)
    (r : M × M × Nat) (hr : r ∈ relationships h) :
    r.2.1 ∈ childrenOf h.childrenMap r.1 := by
  obtain ⟨e, he, ht⟩ := List.mem_flatMap.1 hr
  obtain ⟨ic, hic, hic2⟩ := List.mem_map.1 ht
  have h1 : r.1 = e.1 := by rw [← hic2]
  have h2 : r.2.1 = ic.2 := by rw [← hic2]
  rw [h1, h2, childrenOf, mapGet_of_mem_nodup h.childrenMap hKN e he]
  simp only [Option.getD_some]
  exact mem_of_mem_enum e.2 ic hic

/-- On an acyclic state, `#reduce` deletes no member and leaves exactly
the unflagged edges. -/
theorem reduceOp_characterization (G : Hierarchy M)
    (hKN : KeysNodup G.childrenMap) (hLN : ListsNodup G.childrenMap)
    (hac : ∀ m, ¬ Reaches G.childrenMap m m) :
    (∀ x, childrenOf (reduceOp G).childrenMap x =
        (childrenOf G.childrenMap x).filter (fun y => !(isTransitiveRel G x y))) ∧
      keys (reduceOp G).childrenMap = keys G.childrenMap := by
  apply reduceOp_fold_characterization G hac (flaggedRels G)
  · intro r hr
    have hf := List.mem_filter.1 hr
    refine ⟨relationships_edge G hKN r hf.1, by simpa using hf.2⟩
  · have := relationships_pairs_nodup G hKN hLN
    have hsl : ((flaggedRels G).map (fun t => (t.1, t.2.1))).Sublist
        ((relationships G).map (fun t => (t.1, t.2.1))) :=
      List.Sublist.map _ (List.filter_sublist _)
    exact List.Nodup.sublist hsl this
  · intro x
    symm
    apply List.filter_eq_self.2
    intro y hy
    cases hflag : isTransitiveRel G x y
    · simp
    · simp only [hflag, Bool.not_true, Bool.false_or]
      obtain ⟨i, hi⟩ := edge_mem_relationships G x y hy
      apply (anyIn_spec (flaggedRels G) x y).2
      refine ⟨i, ?_⟩
      rw [flaggedRels]
      exact List.mem_filter.2 ⟨hi, by simpa using hflag⟩
  · rfl



/-! ## `#reduce` preserves reachability on acyclic states -/

/-- Acyclicity from any strictly decreasing potential. -/
theorem acyclic_of_potential (cm : CMap M) (f : M → Nat)
    (hdec : ∀ x y, y ∈ childrenOf cm x → f y < f x) : ∀ m, ¬ Reaches cm m m := by
  have hmono : ∀ a b, Reaches cm a b → f b < f a := by
    intro a b h
    induction h with
    | single hs => exact hdec _ _ hs
    | cons hs _ ih => exact lt_trans ih (hdec _ _ hs)
  intro m hr
  exact lt_irrefl _ (hmono m m hr)

/-- Every reached node is reached through some final edge. -/
theorem reaches_last_edge (cm : CMap M) (a b : M) (hr : Reaches cm a b) :
    ∃ y, b ∈ childrenOf cm y := by
  induction hr with
  | single hs => exact ⟨_, hs⟩
  | cons _ _ ih => exact ih

theorem reaches_target_mem_keys (cm : CMap M) (hLC : ListClosed cm) (a b : M)
    (hr : Reaches cm a b) : b ∈ keys cm := by
  obtain ⟨y, hy⟩ := reaches_last_edge cm a b hr
  exact childrenOf_subset_keys cm hLC y b hy

theorem filter_eq_singleton (l : List M) (hl : l.Nodup) (a : M) (ha : a ∈ l)
    (q : M → Bool) (hq : ∀ x ∈ l, q x = true ↔ x = a) : l.filter q = [a] := by
  induction l with
  | nil => simp at ha
  | cons x xs ih =>
    rw [List.nodup_cons] at hl
    rcases List.mem_cons.1 ha with hxa | hxa
    · subst hxa
      rw [List.filter_cons, if_pos (by exact_mod_cast (hq a (List.mem_cons_self _ _)).2 rfl)]
      have hrest : xs.filter q = [] := by
        apply List.filter_eq_nil_iff.2
        intro y hy
        intro hqy
        have := (hq y (List.mem_cons_of_mem _ hy)).1 hqy
        exact hl.1 (this ▸ hy)
      rw [hrest]
    · have hxna : q x = false := by
        cases hqx : q x
        · rfl
        · exact absurd ((hq x (List.mem_cons_self _ _)).1 hqx ▸ hxa) hl.1
      rw [List.filter_cons, if_neg (by simp [hxna])]
      exact ih hl.2 hxa (fun y hy => hq y (List.mem_cons_of_mem _ hy))

/-- Edge-wise reachability preservation across `#reduce` on an acyclic
state, by strong induction on the height gap: a flagged edge is replaced
by its alternate path, whose edges all have strictly smaller gaps. -/
theorem edge_reaches_reduceOp (G : Hierarchy M)
    (hKN : KeysNodup G.childrenMap) (hLN : ListsNodup G.childrenMap)
    (hac : ∀ m, ¬ Reaches G.childrenMap m m) :
    ∀ (n : Nat) (u v : M),
      heightOf G.childrenMap u - heightOf G.childrenMap v ≤ n →
      v ∈ childrenOf G.childrenMap u → Reaches (reduceOp G).childrenMap u v := by
  have hchar := (reduceOp_characterization G hKN hLN hac).1
  intro n
  induction n with
  | zero =>
    intro u v hle hedge
    exfalso
    have := heightOf_lt_of_reaches G.childrenMap hac u v (Reaches.single hedge)
    omega
  | succ n ih =>
    intro u v hle hedge
    cases hflag : isTransitiveRel G u v
    · apply Reaches.single
      rw [hchar u]
      exact List.mem_filter.2 ⟨hedge, by simp [hflag]⟩
    · have halt := isTransitiveRel_alt_path G u v hflag
      set E := eraseEdge G.childrenMap u v with hE
      have hEsub : ∀ x y, y ∈ childrenOf E x → y ∈ childrenOf G.childrenMap x := by
        intro x y hy
        by_cases hxu : x = u
        · rw [hxu] at hy ⊢
          rw [hE, eraseEdge, childrenOf_set_self] at hy
          exact mem_eraseFirst_imp _ v y hy
        · rw [hE, eraseEdge, childrenOf_set_ne _ u x _ (fun he => hxu he.symm)] at hy
          exact hy
      have hEu : childrenOf E u = eraseFirst (childrenOf G.childrenMap u) v := by
        rw [hE, eraseEdge, childrenOf_set_self]
      obtain ⟨l, hl⟩ := reaches_chainL E u v halt
      have hv_u : heightOf G.childrenMap v < heightOf G.childrenMap u :=
        heightOf_lt_of_reaches G.childrenMap hac u v (Reaches.single hedge)
      have inner : ∀ (l2 : List M) (x : M), (x = u ∨ Reaches G.childrenMap u x) →
          ChainL E x l2 v → Reaches (reduceOp G).childrenMap x v := by
        intro l2
        induction l2 with
        | nil =>
          intro x hx hcx
          have hxv : v ∈ childrenOf E x := hcx
          rcases hx with hxu | hxr
          · exfalso
            rw [hxu, hEu] at hxv
            exact not_mem_eraseFirst_of_nodup _ v (nodup_childrenOf _ hLN u) hxv
          · have hxvG : v ∈ childrenOf G.childrenMap x := hEsub x v hxv
            have hxu : heightOf G.childrenMap x < heightOf G.childrenMap u :=
              heightOf_lt_of_reaches G.childrenMap hac u x hxr
            exact ih x v (by omega) hxvG
        | cons z zs ih2 =>
          intro x hx hcx
          rw [ChainL] at hcx
          have hxz : z ∈ childrenOf E x := hcx.1
          have hxzG : z ∈ childrenOf G.childrenMap x := hEsub x z hxz
          have hzv : z ≠ v := by
            intro he
            have hrz : Reaches E z v := chainL_reaches E z v zs hcx.2
            rw [he] at hrz
            exact hac v (reaches_mono E G.childrenMap hEsub v v hrz)
          have hzvr : Reaches G.childrenMap z v :=
            reaches_mono E G.childrenMap hEsub z v (chainL_reaches E z v zs hcx.2)
          have hvz : heightOf G.childrenMap v < heightOf G.childrenMap z :=
            heightOf_lt_of_reaches G.childrenMap hac z v hzvr
          have hzx : heightOf G.childrenMap z < heightOf G.childrenMap x :=
            heightOf_lt_of_reaches G.childrenMap hac x z (Reaches.single hxzG)
          have hstep : Reaches (reduceOp G).childrenMap x z := by
            rcases hx with hxu | hxr
            · rw [hxu] at hxzG hzx ⊢
              exact ih u z (by omega) hxzG
            · have hxu2 : heightOf G.childrenMap x < heightOf G.childrenMap u :=
                heightOf_lt_of_reaches G.childrenMap hac u x hxr
              exact ih x z (by omega) hxzG
          have hrest : Reaches (reduceOp G).childrenMap z v := by
            apply ih2 z _ hcx.2
            rcases hx with hxu | hxr
            · exact Or.inr (hxu ▸ Reaches.single hxzG)
            · exact Or.inr (reaches_trans _ u x z hxr (Reaches.single hxzG))
          exact reaches_trans _ x z v hstep hrest
      exact inner l u (Or.inl rfl) hl

theorem reduceOp_preserves_reaches (G : Hierarchy M)
    (hKN : KeysNodup G.childrenMap) (hLN : ListsNodup G.childrenMap)
    (hac : ∀ m, ¬ Reaches G.childrenMap m m) (a b : M)
    (hr : Reaches G.childrenMap a b) : Reaches (reduceOp G).childrenMap a b := by
  induction hr with
  | single hstep =>
    exact edge_reaches_reduceOp G hKN hLN hac _ _ _ (le_refl _) hstep
  | cons hstep _ ih =>
    exact reaches_trans _ _ _ _
      (edge_reaches_reduceOp G hKN hLN hac _ _ _ (le_refl _) hstep) ih

/-! ## The hierarch field is never changed -/

theorem createRelF_hierarch (f : Nat) :
    ∀ (h : Hierarchy M) (p c : M) (idx : Option Nat),
      ((createRelF f h p c idx).1).hierarch = h.hierarch := by
  induction f with
  | zero => intro h p c idx; rfl
  | succ f ih =>
    intro h p c idx
    rw [createRelF]
    by_cases hpc : p = c
    · rw [if_pos hpc]
    · rw [if_neg hpc]
      by_cases hcyc : (mapGet h.childrenMap c).isSome = true ∧ p ∈ descList h.childrenMap c
      · rw [if_pos hcyc]
      · rw [if_neg hcyc]
        simp only [addMember]
        by_cases hpm : (mapGet h.childrenMap p).isSome = true
        · simp [hpm]
        · simp [hpm, ih]

theorem relatePhase_hierarch (h : Hierarchy M) (args : List (M × M × Option Nat)) :
    (relatePhase h args).1.hierarch = h.hierarch := by
  suffices hgen : ∀ (st : Hierarchy M × List (RelResult M)),
      (args.foldl (fun st a =>
        let r := createRelationship st.1 a.1 a.2.1 a.2.2
        (r.1, st.2 ++ [r.2])) st).1.hierarch = st.1.hierarch by
    exact hgen (h, [])
  induction args with
  | nil => intro st; rfl
  | cons a rest ih =>
    intro st
    rw [List.foldl_cons, ih]
    exact createRelF_hierarch 3 st.1 a.1 a.2.1 a.2.2

theorem relate_hierarch (h : Hierarchy M) (args : List (M × M × Option Nat)) :
    (relate h args).1.hierarch = h.hierarch := by
  have h1 : (relate h args).1 = reduceOp (relatePhase h args).1 := rfl
  rw [h1, reduceOp, foldl_unrelate_hierarch, relatePhase_hierarch]

theorem eraseFirst_append_singleton (l : List M) (m : M) (hm : m ∉ l) :
    eraseFirst (l ++ [m]) m = l := by
  induction l with
  | nil => simp [eraseFirst]
  | cons x xs ih =>
    simp at hm
    push_neg at hm
    rw [List.cons_append, eraseFirst, if_neg (fun he => hm.1 he.symm), ih hm.2]

theorem eraseFirst_length_le (l : List M) (m : M) :
    (eraseFirst l m).length ≤ l.length := by
  induction l with
  | nil => simp [eraseFirst]
  | cons x xs ih =>
    by_cases hx : x = m
    · rw [eraseFirst, if_pos hx]
      simp
    · rw [eraseFirst, if_neg hx]
      simpa using ih

theorem eraseFirst_append_subset (l1 l2 : List M) (m x : M)
    (hx : x ∈ eraseFirst (l1 ++ l2) m) : x ∈ eraseFirst l1 m ∨ x ∈ l2 := by
  induction l1 with
  | nil =>
    simp only [List.nil_append] at hx
    exact Or.inr (mem_eraseFirst_imp l2 m x hx)
  | cons y ys ih =>
    by_cases hy : y = m
    · rw [List.cons_append, eraseFirst, if_pos hy] at hx
      rw [eraseFirst, if_pos hy]
      exact List.mem_append.1 hx
    · rw [List.cons_append, eraseFirst, if_neg hy] at hx
      rw [eraseFirst, if_neg hy]
      rcases List.mem_cons.1 hx with h | h
      · exact Or.inl (h ▸ List.mem_cons_self _ _)
      · rcases ih h with h2 | h2
        · exact Or.inl (List.mem_cons_of_mem _ h2)
        · exact Or.inr h2

theorem mem_eraseFirst_or (l : List M) (m x : M) (hx : x ∈ l) :
    x ∈ eraseFirst l m ∨ x = m := by
  by_cases hxm : x = m
  · exact Or.inr hxm
  · exact Or.inl (mem_eraseFirst_of_ne l m x hx hxm)

theorem mapGet_eq_childrenOf_of_mem (cm : CMap M) (k : M) (hk : k ∈ keys cm) :
    mapGet cm k = some (childrenOf cm k) := by
  cases hg : mapGet cm k with
  | none =>
    have := (mapGet_isSome_iff cm k).2 hk
    rw [hg] at this
    simp at this
  | some v => simp [childrenOf, hg]

theorem addMember_of_mem (h : Hierarchy M) (c : M) (hc : c ∈ keys h.childrenMap) :
    (addMember h c).childrenMap = h.childrenMap := by
  rw [addMember]
  exact mapSet_id _ c _ (mapGet_eq_childrenOf_of_mem _ c hc)

theorem listsNodup_mapSet (cm : CMap M) (k : M) (v : List M)
    (hLN : ListsNodup cm) (hv : v.Nodup) : ListsNodup (mapSet cm k v) := by
  induction cm with
  | nil =>
    intro e he
    simp [mapSet] at he
    rw [he]
    exact hv
  | cons f rest ih =>
    intro e he
    by_cases hf : f.1 = k
    · rw [mapSet.eq_def] at he
      simp only [hf, if_pos] at he
      rcases List.mem_cons.1 he with h | h
      · rw [h]
        exact hv
      · exact hLN e (List.mem_cons_of_mem _ h)
    · rw [mapSet.eq_def] at he
      simp only [hf, if_neg, if_false] at he
      rcases List.mem_cons.1 he with h | h
      · rw [h]
        exact hLN f (List.mem_cons_self _ _)
      · exact ih (fun e2 he2 => hLN e2 (List.mem_cons_of_mem _ he2)) e h

theorem noParentHier_childrenOf (h : Hierarchy M) (hNP : NoParentHier h) (x : M) :
    h.hierarch ∉ childrenOf h.childrenMap x := by
  intro hmem
  cases hg : mapGet h.childrenMap x with
  | none => rw [childrenOf, hg] at hmem; simp at hmem
  | some l =>
    rw [childrenOf, hg] at hmem
    simp only [Option.getD_some] at hmem
    exact hNP (x, l) (mapGet_mem _ x l hg) hmem

theorem not_reaches_of_childrenOf_nil (cm : CMap M) (a : M)
    (ha : childrenOf cm a = []) (b : M) : ¬ Reaches cm a b := by
  intro hr
  cases hr with
  | single hs => rw [ha] at hs; simp at hs
  | cons hs _ => rw [ha] at hs; simp at hs

/-- Reachability splits off its last edge, keeping the prefix. -/
theorem reaches_decomp_last (cm : CMap M) (a b : M) (hr : Reaches cm a b) :
    b ∈ childrenOf cm a ∨ ∃ y, Reaches cm a y ∧ b ∈ childrenOf cm y := by
  induction hr with
  | single hs => exact Or.inl hs
  | cons hs hr2 ih =>
    rcases ih with h | ⟨y, hy1, hy2⟩
    · exact Or.inr ⟨_, Reaches.single hs, h⟩
    · exact Or.inr ⟨y, Reaches.cons hs hy1, hy2⟩

/-- Walk decomposition over a one-edge extension: a walk in the extended
graph either lies in the base graph or routes through the new edge
`p → c`: the source walks to `p` (or is `p`) and `c` walks to the target
(or is the target). -/
theorem reaches_add_edge_decomp (cm cm' : CMap M) (p c : M)
    (hsub : ∀ x y, y ∈ childrenOf cm' x → y ∈ childrenOf cm x ∨ (x = p ∧ y = c))
    (u v : M) (hr : Reaches cm' u v) :
    Reaches cm u v ∨
      (Reaches cm u p ∨ u = p) ∧ (Reaches cm c v ∨ c = v) := by
  induction hr with
  | single hs =>
    rcases hsub _ _ hs with h | ⟨h1, h2⟩
    · exact Or.inl (Reaches.single h)
    · exact Or.inr ⟨Or.inr h1, Or.inr h2.symm⟩
  | cons hs hr2 ih =>
    rcases hsub _ _ hs with hstep | ⟨h1, h2⟩
    · rcases ih with h | ⟨hyp, hcv⟩
      · exact Or.inl (Reaches.cons hstep h)
      · refine Or.inr ⟨?_, hcv⟩
        rcases hyp with h3 | h3
        · exact Or.inl (Reaches.cons hstep h3)
        · exact Or.inl (h3 ▸ Reaches.single hstep)
    · rcases ih with h | ⟨_, hcv⟩
      · exact Or.inr ⟨Or.inr h1, Or.inl (h2 ▸ h)⟩
      · exact Or.inr ⟨Or.inr h1, hcv⟩

/-- Adding a single edge `p → c` to an acyclic graph keeps it acyclic
whenever `p` was not reachable from `c`. -/
theorem acyclic_add_edge (cm cm' : CMap M) (p c : M) (hpc : p ≠ c)
    (hsub : ∀ x y, y ∈ childrenOf cm' x → y ∈ childrenOf cm x ∨ (x = p ∧ y = c))
    (hncp : ¬ Reaches cm c p) (hac : ∀ m, ¬ Reaches cm m m) :
    ∀ m, ¬ Reaches cm' m m := by
  intro m hr
  rcases reaches_add_edge_decomp cm cm' p c hsub m m hr with h | ⟨h1, h2⟩
  · exact hac m h
  · rcases h1 with h1 | h1 <;> rcases h2 with h2 | h2
    · exact hncp (reaches_trans cm c m p h2 h1)
    · exact hncp (h2 ▸ h1)
    · exact hncp (h1 ▸ h2)
    · exact hpc (h1.symm.trans h2.symm)

/-- Two association maps with the same (duplicate-free) key sequence and
the same lookups are equal. -/
theorem cmap_ext (cm1 : CMap M) (hKN : KeysNodup cm1) :
    ∀ cm2 : CMap M, keys cm1 = keys cm2 →
      (∀ x, childrenOf cm1 x = childrenOf cm2 x) → cm1 = cm2 := by
  induction cm1 with
  | nil =>
    intro cm2 hk _
    cases cm2 with
    | nil => rfl
    | cons f s => simp [keys] at hk
  | cons e t ih =>
    intro cm2 hk hc
    cases cm2 with
    | nil => simp [keys] at hk
    | cons f s =>
      simp only [keys, List.map_cons, List.cons.injEq] at hk
      have hKNc : (e.1 :: List.map Prod.fst t).Nodup := by
        rw [KeysNodup, keys] at hKN
        simpa using hKN
      have hKN2 : KeysNodup t := by
        rw [KeysNodup, keys]
        exact (List.nodup_cons.1 hKNc).2
      have hnot : e.1 ∉ keys t := by
        rw [keys]
        exact (List.nodup_cons.1 hKNc).1
      have hval : e.2 = f.2 := by
        have h1 : childrenOf (e :: t) e.1 = e.2 := by
          simp [childrenOf, mapGet]
        have h2 : childrenOf (f :: s) e.1 = f.2 := by
          simp [childrenOf, mapGet, hk.1]
        rw [← h1, hc e.1, h2]
      have htail : t = s := by
        apply ih hKN2 s hk.2
        intro x
        have hnot2 : e.1 ∉ keys s := by
          rw [keys, ← hk.2]
          exact hnot
        by_cases hx : x = e.1
        · rw [hx, childrenOf_of_not_mem t e.1 hnot, childrenOf_of_not_mem s e.1 hnot2]
        · have hex : e.1 ≠ x := fun he => hx he.symm
          have h1 : childrenOf (e :: t) x = childrenOf t x := by
            simp [childrenOf, mapGet, hex]
          have h2 : childrenOf (f :: s) x = childrenOf s x := by
            have hfx : f.1 ≠ x := by
              rw [← hk.1]
              exact fun he => hx he.symm
            simp [childrenOf, mapGet, hfx]
          rw [← h1, hc x, h2]
      have hef : e = f := by
        cases e
        cases f
        simp only at hk hval
        simp [hk.1, hval]
      rw [hef, htail]

theorem hierarchy_ext (h1 h2 : Hierarchy M) (he : h1.hierarch = h2.hierarch)
    (hm : h1.childrenMap = h2.childrenMap) : h1 = h2 := by
  cases h1
  cases h2
  simp only at he hm
  rw [he, hm]

/-- A list where exactly the elements with a given projection pair pass
the filter, and that pair occurs once, filters to that one element. -/
theorem filter_pair_eq_singleton (l : List (M × M × Nat))
    (hl : (l.map (fun t => (t.1, t.2.1))).Nodup) (r : M × M × Nat) (hr : r ∈ l)
    (q : M × M × Nat → Bool)
    (hq : ∀ t ∈ l, q t = true ↔ (t.1, t.2.1) = (r.1, r.2.1)) :
    l.filter q = [r] := by
  induction l with
  | nil => simp at hr
  | cons x xs ih =>
    rw [List.map_cons, List.nodup_cons] at hl
    rcases List.mem_cons.1 hr with hxr | hxr
    · rw [List.filter_cons, if_pos ((hq x (List.mem_cons_self _ _)).2 (by rw [hxr]))]
      have hrest : xs.filter q = [] := by
        apply List.filter_eq_nil_iff.2
        intro t ht
        intro hqt
        have := (hq t (List.mem_cons_of_mem _ ht)).1 hqt
        apply hl.1
        rw [← hxr, ← this]
        exact List.mem_map_of_mem _ ht
      rw [hrest, hxr]
    · rw [List.filter_cons, if_neg ?_]
      · exact ih hl.2 hxr (fun t ht => hq t (List.mem_cons_of_mem _ ht))
      · intro hqx
        have := (hq x (List.mem_cons_self _ _)).1 hqx
        apply hl.1
        rw [this]
        exact List.mem_map_of_mem _ hxr

/-! ## Claim C7 — implicit attachment of a missing parent -/

/-- C7: relating a triple whose parent is not yet a member first relates
the parent to the hierarch through the same insertion path: afterwards
the parent is a member whose parent set is exactly `{hierarch}`, and
every member of the result is reachable from the hierarch through
children edges.  (Assumes the state is well-formed, acyclic, and has all
members reachable from the hierarch; `child ≠ hierarch` keeps the call
out of the cycle bug covered by the acyclicity claim.) -/
theorem relate_missing_parent_attached_to_hierarch (h : Hierarchy M) (p c : M)
    (idx : Option Nat) (hInv : Inv h) (hAc : AcyclicL h.childrenMap)
    (hAR : AllReach h) (hp : p ∉ members h) (hpc : p ≠ c) (hcH : c ≠ h.hierarch) :
    p ∈ members (relate h [(p, c, idx)]).1 ∧
      parents (relate h [(p, c, idx)]).1 p = some [h.hierarch] ∧
      ∀ m ∈ members (relate h [(p, c, idx)]).1, m ≠ h.hierarch →
        m ∈ (descendants (relate h [(p, c, idx)]).1 h.hierarch).getD [] := by
  obtain ⟨⟨hKN, hLN, hLC, hNS⟩, hHM⟩ := hInv
  have hacR : ∀ m, ¬ Reaches h.childrenMap m m := (acyclicL_iff h.childrenMap).1 hAc
  have hpk : p ∉ keys h.childrenMap := hp
  have hpH : p ≠ h.hierarch := fun he => hpk (he ▸ hHM)
  have hnone : mapGet h.childrenMap p = none := mapGet_eq_none_of_not_mem _ p hpk
  have hchp : childrenOf h.childrenMap p = [] := childrenOf_of_not_mem _ p hpk
  have hcyc : ¬ ((mapGet h.childrenMap c).isSome = true ∧ p ∈ descList h.childrenMap c) := by
    rintro ⟨_, hd⟩
    exact hpk (reaches_target_mem_keys h.childrenMap hLC c p
      (descF_sound _ _ c p hd))
  have hcr := createRelationship_success_fresh h p c idx hpc hcyc hnone hHM hLC
  set G := (relatePhase h [(p, c, idx)]).1 with hGset
  have hGdef : G = (createRelationship h p c idx).1 := by
    rw [hGset, relatePhase_single]
  have hGcm : G.childrenMap = mapSet
      (addMember ⟨h.hierarch, mapSet (mapSet h.childrenMap p [])
          h.hierarch (childrenOf h.childrenMap h.hierarch ++ [p])⟩ c).childrenMap p
      (spliceInsert (eraseFirst (childrenOf h.childrenMap p) c)
        (idx.getD (childrenOf h.childrenMap p).length) c) := by
    rw [hGdef, hcr]
  have hLnil : spliceInsert (eraseFirst (childrenOf h.childrenMap p) c)
      (idx.getD (childrenOf h.childrenMap p).length) c = [c] := by
    rw [hchp]
    exact spliceInsert_nil _ c
  -- pointwise children of the post-insertion state
  have hGp : childrenOf G.childrenMap p = [c] := by
    rw [hGcm, childrenOf_set_self, hLnil]
  have hGH : childrenOf G.childrenMap h.hierarch =
      childrenOf h.childrenMap h.hierarch ++ [p] := by
    rw [hGcm, childrenOf_set_ne _ p h.hierarch _ hpH, addMember_childrenOf]
    simp only
    rw [childrenOf_set_self]
  have hGother : ∀ x, x ≠ p → x ≠ h.hierarch →
      childrenOf G.childrenMap x = childrenOf h.childrenMap x := by
    intro x hxp hxH
    rw [hGcm, childrenOf_set_ne _ p x _ (fun he => hxp he.symm), addMember_childrenOf]
    simp only
    rw [childrenOf_set_ne _ h.hierarch x _ (fun he => hxH he.symm),
      childrenOf_set_ne _ p x _ (fun he => hxp he.symm)]
  have hkeysG : ∀ x, x ∈ keys G.childrenMap ↔
      x ∈ keys h.childrenMap ∨ x = p ∨ x = c := by
    intro x
    rw [hGcm, mem_keys_set, addMember_keys]
    simp only
    rw [mem_keys_set, mem_keys_set]
    constructor
    · rintro ((((hx | hx) | hx) | hx) | hx)
      · exact Or.inl hx
      · exact Or.inr (Or.inl hx)
      · exact Or.inl (hx ▸ hHM)
      · exact Or.inr (Or.inr hx)
      · exact Or.inr (Or.inl hx)
    · rintro (hx | hx | hx)
      · exact Or.inl (Or.inl (Or.inl (Or.inl hx)))
      · exact Or.inl (Or.inl (Or.inl (Or.inr hx)))
      · exact Or.inl (Or.inr hx)
  have hpkeysG : p ∈ keys G.childrenMap := (hkeysG p).2 (Or.inr (Or.inl rfl))
  have hHkeysG : h.hierarch ∈ keys G.childrenMap := (hkeysG h.hierarch).2 (Or.inl hHM)
  -- well-formedness of the post-insertion state
  have hInvG : Inv G := by
    rw [hGset]
    exact inv_relatePhase h [(p, c, idx)] ⟨⟨hKN, hLN, hLC, hNS⟩, hHM⟩
  -- no stored list of h holds p
  have hnolist : ∀ x, p ∉ childrenOf h.childrenMap x := by
    intro x hmem
    exact hpk (childrenOf_subset_keys _ hLC x p hmem)
  -- only the hierarch lists p in the post-insertion state
  have hGmemp : ∀ x, p ∈ childrenOf G.childrenMap x → x = h.hierarch := by
    intro x hx
    by_cases hxp : x = p
    · rw [hxp, hGp] at hx
      exact absurd (List.mem_singleton.1 hx) hpc
    · by_cases hxH : x = h.hierarch
      · exact hxH
      · rw [hGother x hxp hxH] at hx
        exact absurd hx (hnolist x)
  -- acyclicity of the post-insertion state, via a potential function
  have hacG : ∀ m, ¬ Reaches G.childrenMap m m := by
    apply acyclic_of_potential G.childrenMap
      (fun x => if x = p then (if c ∈ keys h.childrenMap then 2 * heightOf h.childrenMap c + 5 else 1)
        else if x = c ∧ c ∉ keys h.childrenMap then 0 else 2 * heightOf h.childrenMap x + 4)
    intro x y hy
    have hHc : c ∈ keys h.childrenMap → heightOf h.childrenMap c < heightOf h.childrenMap h.hierarch := by
      intro hck
      rcases hAR c hck with he | hd
      · exact absurd he hcH
      · exact heightOf_lt_of_reaches _ hacR _ _ (descF_sound _ _ _ _ hd)
    by_cases hxp : x = p
    · rw [hxp, hGp] at hy
      have hyc : y = c := List.mem_singleton.1 hy
      rw [hxp, hyc, if_pos rfl]
      by_cases hck : c ∈ keys h.childrenMap
      · rw [if_pos hck, if_neg (fun he => hpc he.symm), if_neg (by simp [hck])]
        omega
      · rw [if_neg hck, if_neg (fun he => hpc he.symm), if_pos ⟨rfl, hck⟩]
        omega
    · by_cases hxH : x = h.hierarch
      · rw [hxH, hGH] at hy
        rw [if_neg hxp, hxH, if_neg
          (fun hand : h.hierarch = c ∧ c ∉ keys h.childrenMap => hcH hand.1.symm)]
        rcases List.mem_append.1 hy with hyo | hyp2
        · have hyk : y ∈ keys h.childrenMap := childrenOf_subset_keys _ hLC _ y hyo
          have hyne : y ≠ p := fun he => hpk (he ▸ hyk)
          rw [if_neg hyne, if_neg
            (fun hand : y = c ∧ c ∉ keys h.childrenMap => hand.2 (hand.1 ▸ hyk))]
          have := heightOf_lt_of_reaches _ hacR h.hierarch y (Reaches.single hyo)
          omega
        · have hyp3 : y = p := List.mem_singleton.1 hyp2
          rw [hyp3, if_pos rfl]
          by_cases hck : c ∈ keys h.childrenMap
          · rw [if_pos hck]
            have := hHc hck
            omega
          · rw [if_neg hck]
            omega
      · by_cases hxk : x ∈ keys h.childrenMap
        · rw [hGother x hxp hxH] at hy
          have hyk : y ∈ keys h.childrenMap := childrenOf_subset_keys _ hLC x y hy
          have hyne : y ≠ p := fun he => hpk (he ▸ hyk)
          have hlt := heightOf_lt_of_reaches _ hacR x y (Reaches.single hy)
          rw [if_neg hxp, if_neg
              (fun hand : x = c ∧ c ∉ keys h.childrenMap => hand.2 (hand.1 ▸ hxk)),
            if_neg hyne, if_neg
              (fun hand : y = c ∧ c ∉ keys h.childrenMap => hand.2 (hand.1 ▸ hyk))]
          omega
        · rw [hGother x hxp hxH, childrenOf_of_not_mem _ x hxk] at hy
          simp at hy
  -- characterise the final (post-reduce) state
  have hchar := reduceOp_characterization G hInvG.1.1 hInvG.1.2.1 hacG
  have hfin : (relate h [(p, c, idx)]).1 = reduceOp G := by
    rw [hGset]
    rfl
  -- (1) the parent is a member
  have hmem1 : p ∈ members (relate h [(p, c, idx)]).1 := by
    rw [members, hfin, hchar.2]
    exact hpkeysG
  refine ⟨hmem1, ?_, ?_⟩
  · -- (2) the parent set of p is exactly the hierarch
    have hflagHp : isTransitiveRel G h.hierarch p = false := by
      cases hflag : isTransitiveRel G h.hierarch p
      · rfl
      · exfalso
        have halt := isTransitiveRel_alt_path G h.hierarch p hflag
        obtain ⟨y, hy⟩ := reaches_last_edge _ _ _ halt
        by_cases hyH : y = h.hierarch
        · rw [hyH, eraseEdge, childrenOf_set_self, hGH,
            eraseFirst_append_singleton _ p (hnolist h.hierarch)] at hy
          exact hnolist h.hierarch hy
        · rw [eraseEdge, childrenOf_set_ne _ h.hierarch y _ (fun he => hyH he.symm)] at hy
          exact hyH (hGmemp y hy)
    have hpin : p ∈ childrenOf (reduceOp G).childrenMap h.hierarch := by
      rw [hchar.1]
      apply List.mem_filter.2
      refine ⟨?_, by simp [hflagHp]⟩
      rw [hGH]
      simp
    have hsome : (mapGet (reduceOp G).childrenMap p).isSome = true := by
      rw [mapGet_isSome_iff, hchar.2]
      exact hpkeysG
    rw [hfin, parents, if_pos hsome]
    have hpar : parentsOf (reduceOp G).childrenMap p = [h.hierarch] := by
      rw [parentsOf]
      apply filter_eq_singleton
      · rw [hchar.2]
        exact hInvG.1.1
      · rw [hchar.2]
        exact hHkeysG
      · intro x hx
        simp only [decide_eq_true_eq]
        constructor
        · intro hmem
          rw [hchar.1] at hmem
          exact hGmemp x (List.mem_filter.1 hmem).1
        · intro he
          rw [he]
          exact hpin
    rw [hpar]
  · -- (3) every member is reachable from the hierarch
    intro m hm hmH
    have hmono : ∀ x y, y ∈ childrenOf h.childrenMap x → y ∈ childrenOf G.childrenMap x := by
      intro x y hy
      by_cases hxp : x = p
      · rw [hxp, hchp] at hy
        simp at hy
      · by_cases hxH : x = h.hierarch
        · rw [hxH, hGH]
          rw [hxH] at hy
          exact List.mem_append.2 (Or.inl hy)
        · rw [hGother x hxp hxH]
          exact hy
    have hmk : m ∈ keys G.childrenMap := by
      rw [members, hfin, hchar.2] at hm
      exact hm
    have hreach : Reaches G.childrenMap h.hierarch m := by
      rcases (hkeysG m).1 hmk with hmo | hmp | hmc
      · rcases hAR m hmo with he | hd
        · exact absurd he hmH
        · exact reaches_mono _ _ hmono _ _ (descF_sound _ _ _ _ hd)
      · rw [hmp]
        apply Reaches.single
        rw [hGH]
        simp
      · by_cases hck : c ∈ keys h.childrenMap
        · rcases hAR c hck with he | hd
          · exact absurd (hmc.trans he) hmH
          · rw [hmc]
            exact reaches_mono _ _ hmono _ _ (descF_sound _ _ _ _ hd)
        · rw [hmc]
          exact Reaches.cons (show p ∈ childrenOf G.childrenMap h.hierarch by
              rw [hGH]; simp)
            (Reaches.single (show c ∈ childrenOf G.childrenMap p by
              rw [hGp]; simp))
    have hfinal : Reaches (reduceOp G).childrenMap h.hierarch m :=
      reduceOp_preserves_reaches G hInvG.1.1 hInvG.1.2.1 hacG _ _ hreach
    have hsomeH : (mapGet (reduceOp G).childrenMap h.hierarch).isSome = true := by
      rw [mapGet_isSome_iff, hchar.2]
      exact hHkeysG
    rw [hfin, descendants, if_pos hsomeH]
    simp only [Option.getD_some]
    exact (mem_descList_iff_Reaches _ _ _).2 hfinal

/-- Witness: relating the chain state `0 → 1 → 2` with the missing
parent `5` over the child `2`. -/
theorem relate_missing_parent_attached_witness :
    Inv familyH ∧ AcyclicL familyH.childrenMap ∧ AllReach familyH ∧
      (5 : Nat) ∉ members familyH ∧ (5 : Nat) ≠ 2 ∧ (2 : Nat) ≠ familyH.hierarch ∧
      (5 ∈ members (relate familyH [(5, 2, none)]).1 ∧
        parents (relate familyH [(5, 2, none)]).1 5 = some [familyH.hierarch] ∧
        ∀ m ∈ members (relate familyH [(5, 2, none)]).1, m ≠ familyH.hierarch →
          m ∈ (descendants (relate familyH [(5, 2, none)]).1 familyH.hierarch).getD []) :=
  ⟨by decide, by decide, by decide, by decide, by decide, by decide,
    relate_missing_parent_attached_to_hierarch familyH 5 2 none (by decide) (by decide)
      (by decide) (by decide) (by decide) (by decide)⟩

theorem reduceOp_hierarch (h : Hierarchy M) : (reduceOp h).hierarch = h.hierarch :=
  foldl_unrelate_hierarch _ h

/-! ## Claim C9 — idempotence of `relate` -/

/-- C9: relating the same `(parent, child)` pair twice with no explicit
index leaves the structure identical to relating it once.  Stated from
any well-formed acyclic state whose hierarch has no parents, for a pair
that passes loop and cycle validation (`child ≠ hierarch` keeps the call
out of the cycle bug).  Both the surviving-edge case (the second
insertion rewrites the parent's list to itself) and the reduced-edge
case (the second insertion re-adds the edge and `#reduce` flags exactly
that edge again) are covered. -/
theorem relate_same_pair_idempotent (h : Hierarchy M) (p c : M)
    (hInv : Inv h) (hAc : AcyclicL h.childrenMap) (hNP : NoParentHier h)
    (hpc : p ≠ c) (hcH : c ≠ h.hierarch)
    (hnc : ¬ ((mapGet h.childrenMap c).isSome = true ∧ p ∈ descList h.childrenMap c)) :
    (relate (relate h [(p, c, none)]).1 [(p, c, none)]).1 =
      (relate h [(p, c, none)]).1 := by
  obtain ⟨⟨hKN, hLN, hLC, hNS⟩, hHM⟩ := hInv
  have hacR : ∀ m, ¬ Reaches h.childrenMap m m := (acyclicL_iff h.childrenMap).1 hAc
  have hncp : ¬ Reaches h.childrenMap c p := by
    by_cases hck : c ∈ keys h.childrenMap
    · intro hr
      exact hnc ⟨(mapGet_isSome_iff _ c).2 hck, (mem_descList_iff_Reaches _ c p).2 hr⟩
    · exact not_reaches_of_childrenOf_nil _ c (childrenOf_of_not_mem _ c hck) p
  set G := (relatePhase h [(p, c, none)]).1 with hGset
  have hGdef : G = (createRelationship h p c none).1 := by
    rw [hGset, relatePhase_single]
  have hInvG : Inv G := by
    rw [hGset]
    exact inv_relatePhase h [(p, c, none)] ⟨⟨hKN, hLN, hLC, hNS⟩, hHM⟩
  obtain ⟨⟨hKNG, hLNG, hLCG, hNSG⟩, hHMG⟩ := hInvG
  -- the post-insertion state: c sits at the end of p's list, and the
  -- graph stays acyclic
  have hmain : (∃ L, childrenOf G.childrenMap p = L ++ [c] ∧ c ∉ L) ∧
      (∀ m, ¬ Reaches G.childrenMap m m) := by
    by_cases hpm : (mapGet h.childrenMap p).isSome = true
    · -- the parent is already a member
      have hcr := createRelationship_success_member h p c none hpc hnc hpm
      have hGcm : G.childrenMap = mapSet (addMember h c).childrenMap p
          (spliceInsert (eraseFirst (childrenOf h.childrenMap p) c)
            ((childrenOf h.childrenMap p).length) c) := by
        rw [hGdef, hcr]
        simp
      have hsplice : childrenOf G.childrenMap p =
          eraseFirst (childrenOf h.childrenMap p) c ++ [c] := by
        rw [hGcm, childrenOf_set_self]
        exact spliceInsert_of_ge _ _ c (eraseFirst_length_le _ c)
      constructor
      · exact ⟨_, hsplice, not_mem_eraseFirst_of_nodup _ c (nodup_childrenOf _ hLN p)⟩
      · apply acyclic_add_edge h.childrenMap G.childrenMap p c hpc _ hncp hacR
        intro x y hy
        by_cases hxp : x = p
        · rw [hxp, hsplice] at hy
          rcases List.mem_append.1 hy with h1m | h1m
          · exact Or.inl (by rw [hxp]; exact mem_eraseFirst_imp _ c y h1m)
          · exact Or.inr ⟨hxp, List.mem_singleton.1 h1m⟩
        · rw [hGcm, childrenOf_set_ne _ p x _ (fun he => hxp he.symm),
            addMember_childrenOf] at hy
          exact Or.inl hy
    · -- the parent is fresh: it is first attached under the hierarch
      have hpk : p ∉ keys h.childrenMap := fun hm => hpm ((mapGet_isSome_iff _ p).2 hm)
      have hnone : mapGet h.childrenMap p = none := mapGet_eq_none_of_not_mem _ p hpk
      have hchp : childrenOf h.childrenMap p = [] := childrenOf_of_not_mem _ p hpk
      have hpH : p ≠ h.hierarch := fun he => hpk (he ▸ hHM)
      have hcr := createRelationship_success_fresh h p c none hpc hnc hnone hHM hLC
      have hGcm : G.childrenMap = mapSet
          (addMember ⟨h.hierarch, mapSet (mapSet h.childrenMap p [])
              h.hierarch (childrenOf h.childrenMap h.hierarch ++ [p])⟩ c).childrenMap p
          (spliceInsert (eraseFirst (childrenOf h.childrenMap p) c)
            ((none : Option Nat).getD (childrenOf h.childrenMap p).length) c) := by
        rw [hGdef, hcr]
      have hLnil : spliceInsert (eraseFirst (childrenOf h.childrenMap p) c)
          ((none : Option Nat).getD (childrenOf h.childrenMap p).length) c = [c] := by
        rw [hchp]
        exact spliceInsert_nil _ c
      have hGp : childrenOf G.childrenMap p = [c] := by
        rw [hGcm, childrenOf_set_self, hLnil]
      have hGH : childrenOf G.childrenMap h.hierarch =
          childrenOf h.childrenMap h.hierarch ++ [p] := by
        rw [hGcm, childrenOf_set_ne _ p h.hierarch _ hpH, addMember_childrenOf]
        simp only
        rw [childrenOf_set_self]
      have hGother : ∀ x, x ≠ p → x ≠ h.hierarch →
          childrenOf G.childrenMap x = childrenOf h.childrenMap x := by
        intro x hxp hxH
        rw [hGcm, childrenOf_set_ne _ p x _ (fun he => hxp he.symm), addMember_childrenOf]
        simp only
        rw [childrenOf_set_ne _ h.hierarch x _ (fun he => hxH he.symm),
          childrenOf_set_ne _ p x _ (fun he => hxp he.symm)]
      set cmA := mapSet (mapSet h.childrenMap p []) h.hierarch
          (childrenOf h.childrenMap h.hierarch ++ [p]) with hcmA
      have hAp : childrenOf cmA p = [] := by
        rw [hcmA, childrenOf_set_ne _ h.hierarch p _ (fun he => hpH he.symm),
          childrenOf_set_self]
      have hAH : childrenOf cmA h.hierarch =
          childrenOf h.childrenMap h.hierarch ++ [p] := by
        rw [hcmA, childrenOf_set_self]
      have hAo : ∀ x, x ≠ p → x ≠ h.hierarch →
          childrenOf cmA x = childrenOf h.childrenMap x := by
        intro x hxp hxH
        rw [hcmA, childrenOf_set_ne _ h.hierarch x _ (fun he => hxH he.symm),
          childrenOf_set_ne _ p x _ (fun he => hxp he.symm)]
      have hnolist : ∀ x, p ∉ childrenOf h.childrenMap x := fun x hmem =>
        hpk (childrenOf_subset_keys _ hLC x p hmem)
      have hnoH : ∀ x, h.hierarch ∉ childrenOf h.childrenMap x :=
        noParentHier_childrenOf h hNP
      have hacA : ∀ m, ¬ Reaches cmA m m := by
        apply acyclic_add_edge h.childrenMap cmA h.hierarch p (fun he => hpH he.symm) _
          (not_reaches_of_childrenOf_nil _ p hchp h.hierarch) hacR
        intro x y hy
        by_cases hxH : x = h.hierarch
        · rw [hxH, hAH] at hy
          rcases List.mem_append.1 hy with h1m | h1m
          · exact Or.inl (by rw [hxH]; exact h1m)
          · exact Or.inr ⟨hxH, List.mem_singleton.1 h1m⟩
        · by_cases hxp : x = p
          · rw [hxp, hAp] at hy
            simp at hy
          · rw [hAo x hxp hxH] at hy
            exact Or.inl hy
      have hGsubA : ∀ x y, y ∈ childrenOf G.childrenMap x →
          y ∈ childrenOf cmA x ∨ (x = p ∧ y = c) := by
        intro x y hy
        by_cases hxp : x = p
        · rw [hxp, hGp] at hy
          exact Or.inr ⟨hxp, List.mem_singleton.1 hy⟩
        · left
          by_cases hxH : x = h.hierarch
          · rw [hxH, hAH]
            rw [hxH, hGH] at hy
            exact hy
          · rw [hAo x hxp hxH]
            rw [hGother x hxp hxH] at hy
            exact hy
      have hApin : ∀ x, p ∈ childrenOf cmA x → x = h.hierarch := by
        intro x hx
        by_cases hxH : x = h.hierarch
        · exact hxH
        · by_cases hxp : x = p
          · rw [hxp, hAp] at hx
            simp at hx
          · rw [hAo x hxp hxH] at hx
            exact absurd hx (hnolist x)
      have hnAcp : ¬ Reaches cmA c p := by
        intro hr
        rcases reaches_decomp_last cmA c p hr with h1m | ⟨y, hy1, hy2⟩
        · exact hcH (hApin c h1m)
        · have hyH : y = h.hierarch := hApin y hy2
          rw [hyH] at hy1
          obtain ⟨z, hz⟩ := reaches_last_edge cmA c h.hierarch hy1
          by_cases hzH : z = h.hierarch
          · rw [hzH, hAH] at hz
            rcases List.mem_append.1 hz with h2m | h2m
            · exact hnoH h.hierarch h2m
            · exact hpH (List.mem_singleton.1 h2m).symm
          · by_cases hzp : z = p
            · rw [hzp, hAp] at hz
              simp at hz
            · rw [hAo z hzp hzH] at hz
              exact hnoH z hz
      refine ⟨⟨[], by simpa using hGp, by simp⟩, ?_⟩
      exact acyclic_add_edge cmA G.childrenMap p c hpc hGsubA hnAcp hacA
  obtain ⟨⟨Lp, hGpl, hcLp⟩, hacG⟩ := hmain
  have hGedge : c ∈ childrenOf G.childrenMap p := by
    rw [hGpl]
    simp
  have hpkG : p ∈ keys G.childrenMap := childrenOf_ne_nil_mem_keys _ p c hGedge
  have hckG : c ∈ keys G.childrenMap := childrenOf_subset_keys _ hLCG p c hGedge
  have hchar := reduceOp_characterization G hKNG hLNG hacG
  set h1 := (relate h [(p, c, none)]).1 with hh1
  have hfin : h1 = reduceOp G := by
    rw [hh1, hGset]
    rfl
  have hkeys1 : keys h1.childrenMap = keys G.childrenMap := by
    rw [hfin]
    exact hchar.2
  have hKN1 : KeysNodup h1.childrenMap := by
    rw [KeysNodup, hkeys1]
    exact hKNG
  have hLN1 : ListsNodup h1.childrenMap := by
    rw [hfin, reduceOp]
    exact listsNodup_foldl_unrelate _ G hLNG
  have hNS1 : NoSelf h1.childrenMap := by
    rw [hfin, reduceOp]
    exact noSelf_foldl_unrelate _ G hNSG
  have hch1 : ∀ x, childrenOf h1.childrenMap x =
      (childrenOf G.childrenMap x).filter (fun y => !(isTransitiveRel G x y)) := by
    intro x
    rw [hfin]
    exact hchar.1 x
  have hr1pc : Reaches h1.childrenMap p c := by
    rw [hfin]
    exact reduceOp_preserves_reaches G hKNG hLNG hacG p c (Reaches.single hGedge)
  have hac1 : ∀ m, ¬ Reaches h1.childrenMap m m := by
    intro m hr
    apply hacG m
    apply reaches_mono h1.childrenMap G.childrenMap _ m m hr
    intro x y hy
    rw [hch1 x] at hy
    exact (List.mem_filter.1 hy).1
  have hncp1 : ¬ Reaches h1.childrenMap c p := fun hr =>
    hac1 p (reaches_trans _ p c p hr1pc hr)
  have hLC1 : ListClosed h1.childrenMap := by
    intro e he y hy
    have hg : mapGet h1.childrenMap e.1 = some e.2 := mapGet_of_mem_nodup _ hKN1 e he
    have hy2 : y ∈ childrenOf h1.childrenMap e.1 := by
      rw [childrenOf, hg]
      simpa using hy
    rw [hch1 e.1] at hy2
    rw [hkeys1]
    exact childrenOf_subset_keys _ hLCG e.1 y (List.mem_filter.1 hy2).1
  have hh1h : h1.hierarch = h.hierarch := by
    rw [hh1]
    exact relate_hierarch h _
  have hGh : G.hierarch = h.hierarch := by
    rw [hGset]
    exact relatePhase_hierarch h _
  have hHM1 : h1.hierarch ∈ keys h1.childrenMap := by
    rw [hh1h, hkeys1, ← hGh]
    exact hHMG
  have hInv1 : Inv h1 := ⟨⟨hKN1, hLN1, hLC1, hNS1⟩, hHM1⟩
  -- the second call: the parent and child are members now
  have hpk1 : p ∈ keys h1.childrenMap := by
    rw [hkeys1]
    exact hpkG
  have hck1 : c ∈ keys h1.childrenMap := by
    rw [hkeys1]
    exact hckG
  have hps1 : (mapGet h1.childrenMap p).isSome = true := (mapGet_isSome_iff _ p).2 hpk1
  have hnc2 : ¬ ((mapGet h1.childrenMap c).isSome = true ∧
      p ∈ descList h1.childrenMap c) := by
    rintro ⟨_, hd⟩
    exact hncp1 ((mem_descList_iff_Reaches _ c p).1 hd)
  set G2 := (relatePhase h1 [(p, c, none)]).1 with hG2set
  have hG2def : G2 = (createRelationship h1 p c none).1 := by
    rw [hG2set, relatePhase_single]
  have hcr2 := createRelationship_success_member h1 p c none hpc hnc2 hps1
  have hadd : (addMember h1 c).childrenMap = h1.childrenMap := addMember_of_mem h1 c hck1
  have hG2cm : G2.childrenMap = mapSet h1.childrenMap p
      (spliceInsert (eraseFirst (childrenOf h1.childrenMap p) c)
        ((childrenOf h1.childrenMap p).length) c) := by
    rw [hG2def, hcr2]
    simp [hadd]
  have hG2h : G2.hierarch = h1.hierarch := by
    rw [hG2def, hcr2]
  have hInvG2 : Inv G2 := by
    rw [hG2set]
    exact inv_relatePhase h1 [(p, c, none)] hInv1
  have hrel2 : (relate h1 [(p, c, none)]).1 = reduceOp G2 := by
    rw [hG2set]
    rfl
  by_cases hcmem : c ∈ childrenOf h1.childrenMap p
  · -- Case A: the edge survived the first reduce; the second insertion
    -- rewrites p's list to itself and the reduce pass is a no-op
    have hsplit : ∃ L1, childrenOf h1.childrenMap p = L1 ++ [c] ∧ c ∉ L1 := by
      have hcpass : isTransitiveRel G p c = false := by
        cases hfl : isTransitiveRel G p c
        · rfl
        · exfalso
          rw [hch1 p, hGpl, List.filter_append] at hcmem
          rcases List.mem_append.1 hcmem with h1m | h1m
          · exact hcLp (List.mem_filter.1 h1m).1
          · have := List.mem_filter.1 h1m
            rw [hfl] at this
            simp at this
      refine ⟨Lp.filter (fun y => !(isTransitiveRel G p y)), ?_, ?_⟩
      · rw [hch1 p, hGpl, List.filter_append]
        simp [hcpass]
      · intro hc1
        exact hcLp (List.mem_filter.1 hc1).1
    obtain ⟨L1, hL1, hcL1⟩ := hsplit
    have hef : eraseFirst (childrenOf h1.childrenMap p) c = L1 := by
      rw [hL1]
      exact eraseFirst_append_singleton L1 c hcL1
    have hsp : spliceInsert (eraseFirst (childrenOf h1.childrenMap p) c)
        ((childrenOf h1.childrenMap p).length) c = childrenOf h1.childrenMap p := by
      rw [hef, hL1]
      apply spliceInsert_of_ge
      simp
    have hG2cm2 : G2.childrenMap = h1.childrenMap := by
      rw [hG2cm, hsp]
      exact mapSet_id _ p _ (mapGet_eq_childrenOf_of_mem _ p hpk1)
    have hG2eq : G2 = h1 := hierarchy_ext G2 h1 hG2h hG2cm2
    have hred1 : Reduced h1 := by
      intro r hr
      cases hfl : isTransitiveRel h1 r.1 r.2.1
      · rfl
      · exfalso
        have hedge := relationships_edge h1 hKN1 r hr
        have halt := isTransitiveRel_alt_path h1 r.1 r.2.1 hfl
        rw [hfin] at hedge halt
        exact reduceOp_not_redundant G hLNG hNSG r.1 r.2.1 hedge halt
    rw [hrel2, hG2eq]
    exact reduceOp_of_reduced h1 hred1
  · -- Case B: the edge was reduced away; the second insertion re-adds it
    -- at the end, and the reduce pass flags exactly that edge again
    set L1 := childrenOf h1.childrenMap p with hL1def
    have hef : eraseFirst L1 c = L1 := eraseFirst_of_not_mem _ c hcmem
    have hG2cm2 : G2.childrenMap = mapSet h1.childrenMap p (L1 ++ [c]) := by
      rw [hG2cm, hef, spliceInsert_of_ge _ _ c (le_refl _)]
    have hG2p : childrenOf G2.childrenMap p = L1 ++ [c] := by
      rw [hG2cm2, childrenOf_set_self]
    have hG2o : ∀ x, x ≠ p →
        childrenOf G2.childrenMap x = childrenOf h1.childrenMap x := by
      intro x hxp
      rw [hG2cm2, childrenOf_set_ne _ p x _ (fun he => hxp he.symm)]
    have hkeys2 : keys G2.childrenMap = keys h1.childrenMap := by
      rw [hG2cm2]
      exact keys_set_mem _ p _ hpk1
    have hsub2 : ∀ x y, y ∈ childrenOf G2.childrenMap x →
        y ∈ childrenOf h1.childrenMap x ∨ (x = p ∧ y = c) := by
      intro x y hy
      by_cases hxp : x = p
      · rw [hxp, hG2p] at hy
        rcases List.mem_append.1 hy with h1m | h1m
        · exact Or.inl (by rw [hxp]; exact h1m)
        · exact Or.inr ⟨hxp, List.mem_singleton.1 h1m⟩
      · rw [hG2o x hxp] at hy
        exact Or.inl hy
    have hacG2 : ∀ m, ¬ Reaches G2.childrenMap m m :=
      acyclic_add_edge h1.childrenMap G2.childrenMap p c hpc hsub2 hncp1 hac1
    have hflag2 : isTransitiveRel G2 p c = true := by
      rw [isTransitiveRel_iff]
      have hUp : childrenOf (unrelate (cloneH G2) p c).childrenMap p = L1 := by
        rw [childrenOf_unrelate_parent _ p c hpc, childrenOf_cloneH, hG2p,
          List.filter_append]
        have h1f : L1.filter (fun y => (y ≠ c : Bool)) = L1 := by
          apply List.filter_eq_self.2
          intro y hy
          simpa using fun he : y = c => hcmem (he ▸ hy)
        have h2f : ([c].filter (fun y => (y ≠ c : Bool))) = [] := by
          simp
        rw [h1f, h2f, List.append_nil]
      have hU : Reaches (unrelate (cloneH G2) p c).childrenMap p c := by
        apply reaches_mono_except_target h1.childrenMap _ p c hpc _ hr1pc
        intro x hxc y hy
        by_cases hxp : x = p
        · rw [hxp, hUp]
          rw [hxp] at hy
          exact hy
        · rw [childrenOf_unrelate_other _ p c x hxp hxc, childrenOf_cloneH,
            hG2o x hxp]
          exact hy
      exact ⟨(mapGet_isSome_iff _ p).2 (reaches_start_mem_keys _ p c hU), hU⟩
    have hflagother : ∀ a b, b ∈ childrenOf G2.childrenMap a → ¬(a = p ∧ b = c) →
        isTransitiveRel G2 a b = false := by
      intro a b hab hnot
      cases hfl : isTransitiveRel G2 a b
      · rfl
      · exfalso
        have hb1 : b ∈ childrenOf h1.childrenMap a := by
          rcases hsub2 a b hab with h1m | h1m
          · exact h1m
          · exact absurd h1m hnot
        have hDred : ¬ Reaches (eraseEdge h1.childrenMap a b) a b := by
          have hb2 := hb1
          rw [hfin] at hb2
          have hx := reduceOp_not_redundant G hLNG hNSG a b hb2
          rw [← hfin] at hx
          exact hx
        have halt := isTransitiveRel_alt_path G2 a b hfl
        have hsubE : ∀ x y, y ∈ childrenOf (eraseEdge G2.childrenMap a b) x →
            y ∈ childrenOf (eraseEdge h1.childrenMap a b) x ∨ (x = p ∧ y = c) := by
          intro x y hy
          by_cases hxa : x = a
          · rw [hxa, eraseEdge, childrenOf_set_self] at hy
            by_cases hap : a = p
            · have hbc : b ≠ c := fun he => hnot ⟨hap, he⟩
              rw [hap, hG2p] at hy
              rcases eraseFirst_append_subset L1 [c] b y hy with h1m | h1m
              · left
                rw [hxa, eraseEdge, childrenOf_set_self, hap]
                exact h1m
              · exact Or.inr ⟨hxa.trans hap, List.mem_singleton.1 h1m⟩
            · left
              rw [hxa, eraseEdge, childrenOf_set_self]
              rw [hG2o a hap] at hy
              exact hy
          · rw [eraseEdge, childrenOf_set_ne _ a x _ (fun he => hxa he.symm)] at hy
            rcases hsub2 x y hy with h1m | h1m
            · left
              rw [eraseEdge, childrenOf_set_ne _ a x _ (fun he => hxa he.symm)]
              exact h1m
            · exact Or.inr h1m
        rcases reaches_add_edge_decomp (eraseEdge h1.childrenMap a b)
            (eraseEdge G2.childrenMap a b) p c hsubE a b halt with hD | ⟨h1d, h2d⟩
        · exact hDred hD
        · have hsub' : ∀ x y, y ∈ childrenOf h1.childrenMap x →
              y ∈ childrenOf (eraseEdge h1.childrenMap a b) x ∨ (x = a ∧ y = b) := by
            intro x y hy
            by_cases hxa : x = a
            · rcases mem_eraseFirst_or (childrenOf h1.childrenMap a) b y
                  (by rw [← hxa]; exact hy) with h1m | h1m
              · left
                rw [hxa, eraseEdge, childrenOf_set_self]
                exact h1m
              · exact Or.inr ⟨hxa, h1m⟩
            · left
              rw [eraseEdge, childrenOf_set_ne _ a x _ (fun he => hxa he.symm)]
              exact hy
          have hDsub : ∀ x y, y ∈ childrenOf (eraseEdge h1.childrenMap a b) x →
              y ∈ childrenOf h1.childrenMap x := by
            intro x y hy
            by_cases hxa : x = a
            · rw [hxa, eraseEdge, childrenOf_set_self] at hy
              rw [hxa]
              exact mem_eraseFirst_imp _ b y hy
            · rw [eraseEdge, childrenOf_set_ne _ a x _ (fun he => hxa he.symm)] at hy
              exact hy
          have hacD : ∀ m, ¬ Reaches (eraseEdge h1.childrenMap a b) m m := by
            intro m hr
            exact hac1 m (reaches_mono _ _ hDsub m m hr)
          rcases reaches_add_edge_decomp (eraseEdge h1.childrenMap a b)
              h1.childrenMap a b hsub' p c hr1pc with hDpc | ⟨h3d, h4d⟩
          · apply hDred
            have hac2 : Reaches (eraseEdge h1.childrenMap a b) a c := by
              rcases h1d with h1d | h1d
              · exact reaches_trans _ a p c h1d hDpc
              · exact h1d.symm ▸ hDpc
            rcases h2d with h2d | h2d
            · exact reaches_trans _ a c b hac2 h2d
            · exact h2d ▸ hac2
          · by_cases hap : a = p
            · have hbc : b ≠ c := fun he => hnot ⟨hap, he⟩
              have hcb : Reaches (eraseEdge h1.childrenMap a b) c b := by
                rcases h2d with h2d | h2d
                · exact h2d
                · exact absurd h2d.symm hbc
              have hbc2 : Reaches (eraseEdge h1.childrenMap a b) b c := by
                rcases h4d with h4d | h4d
                · exact h4d
                · exact absurd h4d hbc
              exact hacD b (reaches_trans _ b c b hbc2 hcb)
            · have hapr : Reaches (eraseEdge h1.childrenMap a b) a p := by
                rcases h1d with h1d | h1d
                · exact h1d
                · exact absurd h1d hap
              have hpa : Reaches (eraseEdge h1.childrenMap a b) p a := by
                rcases h3d with h3d | h3d
                · exact h3d
                · exact absurd h3d.symm hap
              exact hacD a (reaches_trans _ a p a hapr hpa)
    have hchar2 := reduceOp_characterization G2 hInvG2.1.1 hInvG2.1.2.1 hacG2
    have hcm2 : (reduceOp G2).childrenMap = h1.childrenMap := by
      apply cmap_ext (reduceOp G2).childrenMap ?_ h1.childrenMap ?_ ?_
      · rw [KeysNodup, hchar2.2, hkeys2]
        exact hKN1
      · rw [hchar2.2, hkeys2]
      · intro x
        rw [hchar2.1 x]
        by_cases hxp : x = p
        · rw [hxp, hG2p, List.filter_append]
          have h1f : L1.filter (fun y => !(isTransitiveRel G2 p y)) = L1 := by
            apply List.filter_eq_self.2
            intro y hy
            have hyflag : isTransitiveRel G2 p y = false := by
              apply hflagother p y ?_ ?_
              · rw [hG2p]
                exact List.mem_append.2 (Or.inl hy)
              · rintro ⟨_, hyc⟩
                exact hcmem (hyc ▸ hy)
            simp [hyflag]
          have h2f : ([c].filter (fun y => !(isTransitiveRel G2 p y))) = [] := by
            simp [hflag2]
          rw [h1f, h2f, List.append_nil, hL1def]
        · rw [hG2o x hxp]
          apply List.filter_eq_self.2
          intro y hy
          have hyflag : isTransitiveRel G2 x y = false := by
            apply hflagother x y ?_ ?_
            · rw [hG2o x hxp]
              exact hy
            · rintro ⟨hxp2, _⟩
              exact hxp hxp2
          simp [hyflag]
    rw [hrel2]
    exact hierarchy_ext _ _ ((reduceOp_hierarch G2).trans hG2h) hcm2

/-- Witness: on the chain `0 → 1 → 2`, relating `(1, 2)` twice with no
index gives the same state as relating it once. -/
theorem relate_same_pair_idempotent_witness :
    Inv familyH ∧ AcyclicL familyH.childrenMap ∧ NoParentHier familyH ∧
      (1 : Nat) ≠ 2 ∧ (2 : Nat) ≠ familyH.hierarch ∧
      ¬ ((mapGet familyH.childrenMap 2).isSome = true ∧
          1 ∈ descList familyH.childrenMap 2) ∧
      (relate (relate familyH [(1, 2, none)]).1 [(1, 2, none)]).1 =
        (relate familyH [(1, 2, none)]).1 :=
  ⟨by decide, by decide, by decide, by decide, by decide, by decide,
    relate_same_pair_idempotent familyH 1 2 (by decide) (by decide) (by decide)
      (by decide) (by decide) (by decide)⟩

/-! ## Claim C4 — position of a re-related existing child -/

/-- C4 counterexample: with `children(0) = [1, 2]`, re-relating the
existing child `1` with no explicit index does NOT keep it at position
0 — `#position` computes `effectiveIndex = array.length` before the
removal, so the child is re-inserted at the end: `children(0)` becomes
`[2, 1]`. -/
theorem relate_existing_child_not_kept_at_index :
    children (relate (relate (ofHierarch 0) [(0, 1, none), (0, 2, none)]).1
        [(0, 1, none)]).1 0 = some [2, 1] := by decide

/-- C4 (amended): re-relating an existing child with no explicit index
moves it to the END of the parent's child list (every other entry is
untouched), and the reported `childIndex` is the list length before the
removal — the old position is preserved only when the child was already
last.  Stated from any well-formed, acyclic, reduced state. -/
theorem relate_existing_child_moves_to_end (h : Hierarchy M) (p c : M)
    (hInv : Inv h) (hAc : AcyclicL h.childrenMap) (hred : Reduced h)
    (hc : c ∈ childrenOf h.childrenMap p) :
    (relate h [(p, c, none)]).1 = ⟨h.hierarch,
        mapSet h.childrenMap p (eraseFirst (childrenOf h.childrenMap p) c ++ [c])⟩ ∧
      (relate h [(p, c, none)]).2 =
        [RelResult.rel p c (childrenOf h.childrenMap p).length] := by
  obtain ⟨⟨hKN, hLN, hLC, hNS⟩, hHM⟩ := hInv
  have hacR : ∀ m, ¬ Reaches h.childrenMap m m := (acyclicL_iff h.childrenMap).1 hAc
  have hpk : p ∈ keys h.childrenMap := childrenOf_ne_nil_mem_keys _ p c hc
  have hck : c ∈ keys h.childrenMap := childrenOf_subset_keys _ hLC p c hc
  have hpc : p ≠ c := fun he => noSelf_childrenOf _ hNS p (he.symm ▸ hc)
  have hpm : (mapGet h.childrenMap p).isSome = true := (mapGet_isSome_iff _ p).2 hpk
  have hcyc : ¬ ((mapGet h.childrenMap c).isSome = true ∧
      p ∈ descList h.childrenMap c) := by
    rintro ⟨_, hd⟩
    exact hacR p (reaches_trans _ p c p (Reaches.single hc)
      ((mem_descList_iff_Reaches _ c p).1 hd))
  have hcr := createRelationship_success_member h p c none hpc hcyc hpm
  have hln : (childrenOf h.childrenMap p).Nodup := nodup_childrenOf _ hLN p
  have hsp : spliceInsert (eraseFirst (childrenOf h.childrenMap p) c)
      ((none : Option Nat).getD (childrenOf h.childrenMap p).length) c =
      eraseFirst (childrenOf h.childrenMap p) c ++ [c] := by
    simp only [Option.getD_none]
    exact spliceInsert_of_ge _ _ c (eraseFirst_length_le _ c)
  have hGfull : createRelationship h p c none =
      (⟨h.hierarch, mapSet h.childrenMap p
          (eraseFirst (childrenOf h.childrenMap p) c ++ [c])⟩,
        RelResult.rel p c (childrenOf h.childrenMap p).length) := by
    rw [hcr, addMember_of_mem h c hck, hsp]
    simp
  set G : Hierarchy M := ⟨h.hierarch,
      mapSet h.childrenMap p (eraseFirst (childrenOf h.childrenMap p) c ++ [c])⟩
    with hGdef
  have hGp : childrenOf G.childrenMap p =
      eraseFirst (childrenOf h.childrenMap p) c ++ [c] := by
    rw [hGdef]
    exact childrenOf_set_self _ _ _
  have hGo : ∀ x, x ≠ p →
      childrenOf G.childrenMap x = childrenOf h.childrenMap x := by
    intro x hxp
    rw [hGdef]
    exact childrenOf_set_ne _ p x _ (fun he => hxp he.symm)
  have hmemeq : ∀ x y,
      y ∈ childrenOf G.childrenMap x ↔ y ∈ childrenOf h.childrenMap x := by
    intro x y
    by_cases hxp : x = p
    · rw [hxp, hGp]
      constructor
      · intro hy
        rcases List.mem_append.1 hy with h1 | h1
        · exact mem_eraseFirst_imp _ c y h1
        · rw [List.mem_singleton.1 h1]
          exact hc
      · intro hy
        by_cases hyc : y = c
        · rw [hyc]
          simp
        · exact List.mem_append.2 (Or.inl (mem_eraseFirst_of_ne _ c y hy hyc))
    · rw [hGo x hxp]
  have hkeysG : keys G.childrenMap = keys h.childrenMap := by
    rw [hGdef]
    exact keys_set_mem _ p _ hpk
  have hKNG : KeysNodup G.childrenMap := by
    rw [KeysNodup, hkeysG]
    exact hKN
  have hLNG : ListsNodup G.childrenMap := by
    rw [hGdef]
    apply listsNodup_mapSet _ p _ hLN
    rw [List.nodup_append]
    refine ⟨nodup_eraseFirst _ c hln, List.nodup_singleton c, ?_⟩
    intro y hy hy2
    rw [List.mem_singleton.1 hy2] at hy
    exact not_mem_eraseFirst_of_nodup _ c hln hy
  have hnored : ∀ a b, b ∈ childrenOf h.childrenMap a →
      ¬ Reaches (eraseEdge h.childrenMap a b) a b := by
    intro a b hb
    have hfix : reduceOp h = h := reduceOp_of_reduced h hred
    have hx := reduceOp_not_redundant h hLN hNS a b (by rw [hfix]; exact hb)
    rw [hfix] at hx
    exact hx
  have hredG : Reduced G := by
    intro r hr
    cases hfl : isTransitiveRel G r.1 r.2.1
    · rfl
    · exfalso
      have hedge : r.2.1 ∈ childrenOf G.childrenMap r.1 :=
        relationships_edge G hKNG r hr
      have hedgeh : r.2.1 ∈ childrenOf h.childrenMap r.1 := (hmemeq _ _).1 hedge
      have halt := isTransitiveRel_alt_path G r.1 r.2.1 hfl
      apply hnored r.1 r.2.1 hedgeh
      apply reaches_mono _ _ _ r.1 r.2.1 halt
      intro x y hy
      by_cases hxa : x = r.1
      · rw [hxa, eraseEdge, childrenOf_set_self] at hy
        rw [hxa, eraseEdge, childrenOf_set_self]
        have hGnd : (childrenOf G.childrenMap r.1).Nodup := nodup_childrenOf _ hLNG r.1
        have hym : y ∈ childrenOf G.childrenMap r.1 := mem_eraseFirst_imp _ _ y hy
        have hync : y ≠ r.2.1 := by
          intro he
          rw [he] at hy
          exact not_mem_eraseFirst_of_nodup _ _ hGnd hy
        exact mem_eraseFirst_of_ne _ _ y ((hmemeq _ _).1 hym) hync
      · rw [eraseEdge, childrenOf_set_ne _ r.1 x _ (fun he => hxa he.symm)] at hy
        rw [eraseEdge, childrenOf_set_ne _ r.1 x _ (fun he => hxa he.symm)]
        exact (hmemeq _ _).1 hy
  have hphase : relatePhase h [(p, c, none)] =
      (G, [RelResult.rel p c (childrenOf h.childrenMap p).length]) := by
    rw [relatePhase_single, hGfull]
  constructor
  · show reduceOp (relatePhase h [(p, c, none)]).1 = G
    rw [hphase]
    exact reduceOp_of_reduced G hredG
  · show (relatePhase h [(p, c, none)]).2 =
      [RelResult.rel p c (childrenOf h.childrenMap p).length]
    rw [hphase]

/-- Witness: on `children(0) = [1, 2]`, re-relating `1` with no index
moves it to the end and reports raw index 2. -/
theorem relate_existing_child_moves_to_end_witness :
    Inv (relate (ofHierarch 0) [(0, 1, none), (0, 2, none)]).1 ∧
      AcyclicL (relate (ofHierarch 0) [(0, 1, none), (0, 2, none)]).1.childrenMap ∧
      Reduced (relate (ofHierarch 0) [(0, 1, none), (0, 2, none)]).1 ∧
      1 ∈ childrenOf (relate (ofHierarch 0) [(0, 1, none), (0, 2, none)]).1.childrenMap 0 ∧
      ((relate (relate (ofHierarch 0) [(0, 1, none), (0, 2, none)]).1 [(0, 1, none)]).1 =
          ⟨(relate (ofHierarch 0) [(0, 1, none), (0, 2, none)]).1.hierarch,
            mapSet (relate (ofHierarch 0) [(0, 1, none), (0, 2, none)]).1.childrenMap 0
              (eraseFirst (childrenOf
                (relate (ofHierarch 0) [(0, 1, none), (0, 2, none)]).1.childrenMap 0) 1
                ++ [1])⟩ ∧
        (relate (relate (ofHierarch 0) [(0, 1, none), (0, 2, none)]).1 [(0, 1, none)]).2 =
          [RelResult.rel 0 1 (childrenOf
            (relate (ofHierarch 0) [(0, 1, none), (0, 2, none)]).1.childrenMap 0).length]) :=
  ⟨by decide, by decide, by decide, by decide,
    relate_existing_child_moves_to_end
      (relate (ofHierarch 0) [(0, 1, none), (0, 2, none)]).1 0 1
      (by decide) (by decide) (by decide) (by decide)⟩

/-- C1: after every `relate` call from a well-formed state, (a) every
stored edge `(p, c)` of the result is necessary — `c` is not reachable
from `p` once that single edge is removed, so the stored graph is
transitively reduced; and (b) the reduction pass only ever flags (and
removes) a relationship when an alternate path from its parent to its
child exists in the post-insertion graph (the state after all triples
are inserted and before `#reduce` runs). -/
theorem relate_result_transitively_reduced (h : Hierarchy M)
    (args : List (M × M × Option Nat)) (hInv : Inv h) :
    (∀ p c, c ∈ childrenOf (relate h args).1.childrenMap p →
        ¬ Reaches (eraseEdge (relate h args).1.childrenMap p c) p c) ∧
      ∀ p c, isTransitiveRel (relatePhase h args).1 p c = true →
        Reaches (eraseEdge (relatePhase h args).1.childrenMap p c) p c := by
  have hG := inv_relatePhase h args hInv
  constructor
  · intro p c hc
    have h1 : (relate h args).1 = reduceOp (relatePhase h args).1 := rfl
    rw [h1] at hc ⊢
    exact reduceOp_not_redundant _ hG.1.2.1 hG.1.2.2.2 p c hc
  · intro p c htr
    exact isTransitiveRel_alt_path _ p c htr

/-- Witness at the diamond-closing batch of the test suite
(`0→1, 0→3, 1→2, 1→4, 3→4, 2→3`; the reduction removes `1→4` and
`0→3`). -/
theorem relate_result_transitively_reduced_witness :
    Inv (ofHierarch (0 : Nat)) ∧
      ((∀ p c, c ∈ childrenOf (relate (ofHierarch (0 : Nat))
            [(0, 1, none), (0, 3, none), (1, 2, none), (1, 4, none), (3, 4, none),
              (2, 3, none)]).1.childrenMap p →
          ¬ Reaches (eraseEdge (relate (ofHierarch (0 : Nat))
            [(0, 1, none), (0, 3, none), (1, 2, none), (1, 4, none), (3, 4, none),
              (2, 3, none)]).1.childrenMap p c) p c) ∧
        ∀ p c, isTransitiveRel (relatePhase (ofHierarch (0 : Nat))
            [(0, 1, none), (0, 3, none), (1, 2, none), (1, 4, none), (3, 4, none),
              (2, 3, none)]).1 p c = true →
          Reaches (eraseEdge (relatePhase (ofHierarch (0 : Nat))
            [(0, 1, none), (0, 3, none), (1, 2, none), (1, 4, none), (3, 4, none),
              (2, 3, none)]).1.childrenMap p c) p c) :=
  ⟨by decide,
    relate_result_transitively_reduced (ofHierarch 0)
      [(0, 1, none), (0, 3, none), (1, 2, none), (1, 4, none), (3, 4, none), (2, 3, none)]
      (by decide)⟩

end OOH
